import Mathlib

/-!
Verification of the BioSci chunk-level alignment core
(`src/services/aligner.py`, `src/services/descriptors.py`).

The Python code is embedded shallowly: similarity matrices are lists of
rows of rationals (numpy float arithmetic is idealised as exact rational
arithmetic), the dynamic-programming matrix is built row by row exactly in
the fill order of the nested loops, and the iterative extraction loop is
expressed with an explicit fuel parameter (the Python loop is `while True`
with a break; the fuel chosen by `find_all_alignments` is `N*M + 1`, and a
theorem below shows this fuel is sufficient under the spec's parameter
contract, i.e. the loop terminates within that many iterations).
-/

namespace BioSci

/-- A cell of the dynamic-programming state: the accumulated score
`H_matrix[i, j]` together with the traceback code `traceback[i, j]`
(0 = stop, 1 = diagonal match, 2 = vertical gap, 3 = horizontal gap). -/
abbrev Cell := ℚ × ℕ

/-- The zero cell used for `H_matrix` boundaries and out-of-range lookups. -/
def cell0 : Cell := ((0 : ℚ), 0)

/-- First index of the maximum of four scores, enumerated in the order
`[0, match, gap_h, gap_b]`; replicates `np.argmax` (a later index wins
only by a strict improvement, exactly as in the Python loop). -/
def argmax4 (a b c d : ℚ) : ℕ :=
  if a < b then
    if b < c then (if c < d then 3 else 2)
    else (if b < d then 3 else 1)
  else
    if a < c then (if c < d then 3 else 2)
    else (if a < d then 3 else 0)

/-- Maximum of two rationals, written so that it evaluates by kernel
reduction (the lattice `max` of `ℚ` does not). -/
def qmax (a b : ℚ) : ℚ := if a ≤ b then b else a

/-- Maximum of the four candidate scores. -/
def max4 (a b c d : ℚ) : ℚ := qmax (qmax (qmax a b) c) d

/-- One cell of the Smith-Waterman recurrence (`aligner.py`, lines 39-47):
`s` is the raw similarity `S[i-1, j-1]`, `d` the diagonal predecessor
`H[i-1, j-1]`, `u` the cell above `H[i-1, j]`, `l` the cell to the left
`H[i, j-1]`; gap penalties inspect the neighbour's traceback code. -/
def swStep (go ge st s : ℚ) (d u l : Cell) : Cell :=
  let mtch := d.1 + (s - st)
  let gapH := u.1 + (if u.2 = 2 then ge else go)
  let gapB := l.1 + (if l.2 = 3 then ge else go)
  (max4 0 mtch gapH gapB, argmax4 0 mtch gapH gapB)

/-- Fill of one row of the DP matrix past column 0: `srow` is the
remaining similarity row, `d` the previous row's cell at the previous
column, `p` the previous row's remaining cells from the current column
on, `l` the current row's previous cell. -/
def swRowGo (go ge st : ℚ) : List ℚ → Cell → List Cell → Cell → List Cell
  | [], _, _, _ => []
  | _ :: _, _, [], _ => []
  | s :: srest, d, u :: prest, l =>
      let c := swStep go ge st s d u l
      c :: swRowGo go ge st srest u prest c

/-- One full row of the DP matrix (column 0 is the zero boundary cell). -/
def swRow (go ge st : ℚ) (srow : List ℚ) (prev : List Cell) : List Cell :=
  match prev with
  | [] => [cell0]
  | d :: prest => cell0 :: swRowGo go ge st srow d prest cell0

/-- Rows 1..N of the DP matrix, threaded on the previous row. -/
def swRows (go ge st : ℚ) : List (List ℚ) → List Cell → List (List Cell)
  | [], _ => []
  | srow :: rest, prev =>
      let r := swRow go ge st srow prev
      r :: swRows go ge st rest r

/-- The boundary row 0 of the DP matrix: `M + 1` zero cells. -/
def row0 (m : ℕ) : List Cell := List.replicate (m + 1) cell0

/-- The full `(N+1) × (M+1)` DP matrix `H_matrix`/`traceback` of
`smith_waterman_alignment`, built in the Python fill order. -/
def swMatrix (go ge st : ℚ) (S : List (List ℚ)) : List (List Cell) :=
  row0 (S.headD []).length :: swRows go ge st S (row0 (S.headD []).length)

/-- Lookup of a DP cell; out-of-range indices give the zero cell. -/
def cellAt (H : List (List Cell)) (i j : ℕ) : Cell := (H.getD i []).getD j cell0

/-- The score entry `H_matrix[i, j]`. -/
def Hval (H : List (List Cell)) (i j : ℕ) : ℚ := (cellAt H i j).1

/-- The traceback code `traceback[i, j]`. -/
def Tcode (H : List (List Cell)) (i j : ℕ) : ℕ := (cellAt H i j).2

/-- Lookup of a similarity entry `S[h, b]` (out of range gives 0). -/
def Sval (S : List (List ℚ)) (h b : ℕ) : ℚ := (S.getD h []).getD b 0

/-- The cells `(value, i, j)` of one DP row from column `j` on. -/
def scanRow (i : ℕ) : ℕ → List Cell → List (ℚ × ℕ × ℕ)
  | _, [] => []
  | j, c :: cs => (c.1, i, j) :: scanRow i (j + 1) cs

/-- The cells of the DP rows from row `i` on, skipping column 0 of each
row; together with `scanCells` this lists the interior cells in the
row-major order in which the Python loop visits them. -/
def scanRows : ℕ → List (List Cell) → List (ℚ × ℕ × ℕ)
  | _, [] => []
  | i, r :: rs => scanRow i 1 (r.drop 1) ++ scanRows (i + 1) rs

/-- The interior DP cells `(H[i,j], i, j)` for `i ≥ 1`, `j ≥ 1`,
in row-major order. -/
def scanCells (H : List (List Cell)) : List (ℚ × ℕ × ℕ) := scanRows 1 (H.drop 1)

/-- Running-maximum update: a later cell replaces the current best only
by a strict improvement, as in `if H_matrix[i, j] > max_score`. -/
def better (acc x : ℚ × ℕ × ℕ) : ℚ × ℕ × ℕ := if acc.1 < x.1 then x else acc

/-- The tracked `(max_score, max_pos)` of the fill loop, starting from
score 0 at position `(0, 0)`. -/
def bestCell (H : List (List Cell)) : ℚ × ℕ × ℕ := (scanCells H).foldl better (0, 0, 0)

/-- The traceback walk of `smith_waterman_alignment` (lines 53-67),
with an explicit fuel: each step decreases `i + j`, so fuel `i + j`
makes this exactly the Python `while` loop.  Pairs are produced in the
Python append order (descending coordinates). -/
def tracebackFuel (H : List (List Cell)) : ℕ → ℕ → ℕ → List (ℕ × ℕ)
  | 0, _, _ => []
  | fuel + 1, i, j =>
      if i = 0 ∨ j = 0 ∨ Hval H i j ≤ 0 then []
      else if Tcode H i j = 1 then (i - 1, j - 1) :: tracebackFuel H fuel (i - 1) (j - 1)
      else if Tcode H i j = 2 then tracebackFuel H fuel (i - 1) j
      else if Tcode H i j = 3 then tracebackFuel H fuel i (j - 1)
      else []

/-- `smith_waterman_alignment(S, gap_open, gap_extend, score_threshold)`:
returns `(max_score, alignment, H_matrix)`, the alignment reversed into
ascending order as in the Python code. -/
def smith_waterman_alignment (S : List (List ℚ)) (go ge st : ℚ) :
    ℚ × List (ℕ × ℕ) × List (List Cell) :=
  let H := swMatrix go ge st S
  let b := bestCell H
  (b.1, (tracebackFuel H (b.2.1 + b.2.2) b.2.1 b.2.2).reverse, H)

/-- An alignment record, mirroring the result dict built by
`find_all_alignments` (lines 110-120). -/
structure AlignmentRec where
  score : ℚ
  alignment : List (ℕ × ℕ)
  h_range : ℕ × ℕ
  b_range : ℕ × ℕ
  num_chunks : ℕ
  avg_similarity : ℚ
  h_span : ℕ
  b_span : ℕ
  continuity : ℚ
deriving DecidableEq, Repr

/-- Minimum of a list of naturals (`min(...)` of a nonempty Python list;
the empty case, unreachable for `min_chunks ≥ 1`, is mapped to 0). -/
def natMin : List ℕ → ℕ
  | [] => 0
  | a :: rest => rest.foldl min a

/-- Maximum of a list of naturals (`max(...)` of a nonempty Python list). -/
def natMax : List ℕ → ℕ
  | [] => 0
  | a :: rest => rest.foldl max a

/-- Sum of the similarity entries of the original matrix over the aligned
pairs, the numerator of `np.mean([S[h, b] for h, b in alignment])`. -/
def sumAt (S : List (List ℚ)) (ps : List (ℕ × ℕ)) : ℚ :=
  (ps.map (fun p => Sval S p.1 p.2)).sum

/-- Construction of the result dict of one accepted alignment
(lines 99-120); `np.mean` is sum divided by length. -/
def mkRecord (S : List (List ℚ)) (score : ℚ) (aln : List (ℕ × ℕ)) : AlignmentRec :=
  let hIdx := aln.map Prod.fst
  let bIdx := aln.map Prod.snd
  let hr := (natMin hIdx, natMax hIdx)
  let br := (natMin bIdx, natMax bIdx)
  let hspan := hr.2 - hr.1 + 1
  let bspan := br.2 - br.1 + 1
  let n := aln.length
  { score := score
    alignment := aln
    h_range := hr
    b_range := br
    num_chunks := n
    avg_similarity := sumAt S aln / (n : ℚ)
    h_span := hspan
    b_span := bspan
    continuity := (n : ℚ) / ((max hspan bspan : ℕ) : ℚ) }

/-- Masking of one row: positions `lo..hi` (0-based, inclusive) are set
to 0; `j` is the index of the first element of the remaining row. -/
def maskRow : ℕ → ℕ → ℕ → List ℚ → List ℚ
  | _, _, _, [] => []
  | j, lo, hi, v :: vs => (if lo ≤ j ∧ j ≤ hi then 0 else v) :: maskRow (j + 1) lo hi vs

/-- Masking of the rows `hlo..hhi` of the working matrix over columns
`blo..bhi` (lines 122-125); `i` is the index of the first row given. -/
def maskRowsFrom : ℕ → ℕ → ℕ → ℕ → ℕ → List (List ℚ) → List (List ℚ)
  | _, _, _, _, _, [] => []
  | i, hlo, hhi, blo, bhi, r :: rs =>
      (if hlo ≤ i ∧ i ≤ hhi then maskRow 0 blo bhi r else r) ::
        maskRowsFrom (i + 1) hlo hhi blo bhi rs

/-- Zeroing of the bounding rectangle of an accepted alignment in the
working matrix. -/
def maskMatrix (W : List (List ℚ)) (hlo hhi blo bhi : ℕ) : List (List ℚ) :=
  maskRowsFrom 0 hlo hhi blo bhi W

/-- The extraction loop of `find_all_alignments` (lines 93-126) with an
explicit fuel bound on the number of iterations: `S` is the original
matrix (used for `avg_similarity`), `W` the working matrix. -/
def findAllAux (S : List (List ℚ)) (go ge st ms : ℚ) (mc : ℕ) :
    ℕ → List (List ℚ) → List AlignmentRec
  | 0, _ => []
  | fuel + 1, W =>
      let t := smith_waterman_alignment W go ge st
      if t.1 < ms ∨ t.2.1.length < mc then []
      else
        let r := mkRecord S t.1 t.2.1
        r :: findAllAux S go ge st ms mc fuel
          (maskMatrix W r.h_range.1 r.h_range.2 r.b_range.1 r.b_range.2)

/-- `find_all_alignments(S, gap_open, gap_extend, score_threshold,
min_score, min_chunks)`: the working matrix starts as a copy of `S`; the
fuel `N*M + 1` is shown sufficient by the termination theorem below. -/
def find_all_alignments (S : List (List ℚ)) (go ge st ms : ℚ) (mc : ℕ) :
    List AlignmentRec :=
  findAllAux S go ge st ms mc (S.length * (S.headD []).length + 1) S

/-- The pass predicate of `filter_alignments_adaptive` (lines 158-169):
a record is kept iff none of the three rejection tests fires. -/
def passes (minSim minCont minScore : ℚ) (a : AlignmentRec) : Bool :=
  if a.avg_similarity < minSim ∨ a.continuity < minCont ∨ a.score < minScore
  then false else true

/-- `filter_alignments_adaptive(alignments, S)` (lines 129-176): adaptive
thresholds from the first (best) record; `S` is accepted but, as in the
Python code, not used in the filtering decision. -/
def filter_alignments_adaptive (alignments : List AlignmentRec)
    (S : List (List ℚ)) : List AlignmentRec :=
  match alignments with
  | [] => []
  | best :: _ =>
      let minSim := best.avg_similarity * (9 / 10)
      let minCont := qmax (1 / 2) (best.continuity * (6 / 10))
      let minScore := best.score * (2 / 10)
      alignments.filter (passes minSim minCont minScore)

/-- The 16-descriptor vector of `compute_chunk_descriptors`
(`descriptors.py`), modelled for `include_structural = True` as used by
the pipeline. -/
structure Descriptors where
  length : ℕ
  aromaticity : ℚ
  aliphatic_fraction : ℚ
  GRAVY : ℚ
  hydrophobic_fraction : ℚ
  polar_fraction : ℚ
  instability_index : ℚ
  charge_at_pH7 : ℚ
  positive_fraction : ℚ
  negative_fraction : ℚ
  shannon_entropy : ℚ
  helix_fraction : ℚ
  sheet_fraction : ℚ
  disorder_fraction : ℚ
  surface_exposed_fraction : ℚ
deriving DecidableEq, Repr

/-- The canonical 20-letter residue alphabet `'ACDEFGHIKLMNPQRSTVWY'`. -/
def residueAlphabet : List Char :=
  ['A', 'C', 'D', 'E', 'F', 'G', 'H', 'I', 'K', 'L',
   'M', 'N', 'P', 'Q', 'R', 'S', 'T', 'V', 'W', 'Y']

/-- `clean_seq`: uppercase the sequence and keep only canonical residues
(`descriptors.py`, line 46). -/
def cleanSeq (s : List Char) : List Char :=
  (s.map Char.toUpper).filter (fun c => residueAlphabet.contains c)

/-- The documented fallback descriptor vector (lines 49-58): every
biochemical quantity 0, structural fractions 0 with a neutral 0.5
surface-exposure default; `length` is the length of the raw input. -/
def fallbackDescriptors (n : ℕ) : Descriptors :=
  { length := n
    aromaticity := 0
    aliphatic_fraction := 0
    GRAVY := 0
    hydrophobic_fraction := 0
    polar_fraction := 0
    instability_index := 0
    charge_at_pH7 := 0
    positive_fraction := 0
    negative_fraction := 0
    shannon_entropy := 0
    helix_fraction := 0
    sheet_fraction := 0
    disorder_fraction := 0
    surface_exposed_fraction := 1 / 2 }

/-- `compute_chunk_descriptors(sequence)` with `include_structural=True`:
if the cleaned sequence has fewer than 2 residues the fallback vector is
returned; otherwise the computation is delegated to the descriptor
provider `analyze` (BioPython `ProteinAnalysis` plus the ESM2-backed
structural predictions, external collaborators per spec section 4.5). -/
def compute_chunk_descriptors (analyze : List Char → Descriptors)
    (s : List Char) : Descriptors :=
  if (cleanSeq s).length < 2 then fallbackDescriptors s.length else analyze s

/-- Count of working-matrix cells whose value exceeds the threshold: the
termination measure of the extraction loop. -/
def highCells (st : ℚ) (W : List (List ℚ)) : ℕ :=
  (W.map (fun r => r.countP (fun v => decide (st < v)))).sum

/-- Two bounding rectangles overlap: their index intervals intersect on
both axes (`h_range` and `b_range` are inclusive intervals). -/
def rectsOverlap (r1 r2 : AlignmentRec) : Prop :=
  r1.h_range.1 ≤ r2.h_range.2 ∧ r2.h_range.1 ≤ r1.h_range.2 ∧
  r1.b_range.1 ≤ r2.b_range.2 ∧ r2.b_range.1 ≤ r1.b_range.2

/-- Placeholder record used as the default of positional lookups. -/
def emptyRec : AlignmentRec :=
  { score := 0, alignment := [], h_range := (0, 0), b_range := (0, 0),
    num_chunks := 0, avg_similarity := 0, h_span := 0, b_span := 0,
    continuity := 0 }

/-- Input matrix on which the extraction loop of `find_all_alignments`,
run with the repository's default parameters, returns two records with
overlapping bounding rectangles: the second alignment straddles the
first rectangle (one pair above it, one pair to its right), so masking
the rectangle does not prevent the overlap. -/
def C1mat : List (List ℚ) :=
  [[0, 0, 8 / 10, 0],
   [0, 9 / 10, 0, 8 / 10],
   [0, 0, 9 / 10, 0]]

/-- Input matrix on which the scores of successive records increase:
zeroing the first rectangle raises its very negative cells to 0, opening
a higher-scoring diagonal path through it in the next iteration. -/
def C3mat : List (List ℚ) :=
  [[95 / 100, -1, -1],
   [87 / 100, -1, -1],
   [-1, 87 / 100, 95 / 100]]

/-- Input matrix separating the code's diagonal predecessor
`H[i-1][j-1]` from the spec text's `H[i-1][j]` at cell `(2, 2)`. -/
def C4mat : List (List ℚ) := [[1, -5], [0, 1]]

/-- The DP matrix of `C4mat` with `gap_open = gap_extend = -1` and
`score_threshold = 0`. -/
def C4H : List (List Cell) := swMatrix (-1) (-1) 0 C4mat

/-- A record whose continuity is below 1/2: `filter_alignments_adaptive`
then rejects even this first (best) record, because its own continuity
threshold `max(0.5, 0.6 * best.continuity)` exceeds its continuity. -/
def C2rec : AlignmentRec :=
  { score := 1, alignment := [(0, 0), (1, 5)], h_range := (0, 1),
    b_range := (0, 5), num_chunks := 2, avg_similarity := 1 / 2,
    h_span := 2, b_span := 6, continuity := 1 / 3 }

/-- A best record that does satisfy its own adaptive thresholds
(nonnegative average similarity and score, continuity at least 1/2). -/
def C2recGood : AlignmentRec :=
  { score := 1, alignment := [(0, 0)], h_range := (0, 0), b_range := (0, 0),
    num_chunks := 1, avg_similarity := 1 / 2, h_span := 1, b_span := 1,
    continuity := 1 }

end BioSci

namespace BioSci

set_option maxRecDepth 8000

/-! ### Generic helper lemmas -/

theorem qmax_left (a b : ℚ) : a ≤ qmax a b := by
  unfold qmax; split <;> linarith

theorem qmax_right (a b : ℚ) : b ≤ qmax a b := by
  unfold qmax; split <;> linarith

theorem max4_nonneg (b c d : ℚ) : 0 ≤ max4 0 b c d :=
  le_trans (le_trans (qmax_left 0 b) (qmax_left _ c)) (qmax_left _ d)

theorem swStep_nonneg (go ge st s : ℚ) (d u l : Cell) :
    0 ≤ (swStep go ge st s d u l).1 :=
  max4_nonneg _ _ _

theorem getD_prop {α : Type} (P : α → Prop) :
    ∀ (L : List α) (d : α) (i : ℕ), (∀ x ∈ L, P x) → P d → P (L.getD i d)
  | [], _, _, _, hd => hd
  | a :: _, _, 0, hL, _ => hL a (List.mem_cons_self a _)
  | _ :: t, d, i + 1, hL, hd =>
      getD_prop P t d i (fun x hx => hL x (List.mem_cons_of_mem _ hx)) hd

theorem swRowGo_mem_nonneg (go ge st : ℚ) :
    ∀ (srow : List ℚ) (d : Cell) (p : List Cell) (l : Cell) (c : Cell),
      c ∈ swRowGo go ge st srow d p l → 0 ≤ c.1
  | [], _, _, _, _, h => by simp [swRowGo] at h
  | _ :: _, _, [], _, _, h => by simp [swRowGo] at h
  | s :: srest, d, u :: prest, l, c, h => by
      simp only [swRowGo, List.mem_cons] at h
      rcases h with h | h
      · rw [h]; exact swStep_nonneg go ge st s d u l
      · exact swRowGo_mem_nonneg go ge st srest u prest _ c h

theorem swRow_mem_nonneg (go ge st : ℚ) (srow : List ℚ) (prev : List Cell)
    (c : Cell) (hc : c ∈ swRow go ge st srow prev) : 0 ≤ c.1 := by
  unfold swRow at hc
  match prev, hc with
  | [], hc =>
      simp only [List.mem_singleton] at hc
      rw [hc]; exact le_refl 0
  | d :: prest, hc =>
      rcases List.mem_cons.1 hc with h | h
      · rw [h]; exact le_refl 0
      · exact swRowGo_mem_nonneg go ge st srow d prest cell0 c h

theorem swRows_mem_nonneg (go ge st : ℚ) :
    ∀ (L : List (List ℚ)) (prev : List Cell) (row : List Cell),
      row ∈ swRows go ge st L prev → ∀ c ∈ row, 0 ≤ c.1
  | [], _, _, h => by simp [swRows] at h
  | srow :: rest, prev, row, h => by
      simp only [swRows, List.mem_cons] at h
      rcases h with h | h
      · intro c hc
        rw [h] at hc
        exact swRow_mem_nonneg go ge st srow prev c hc
      · exact swRows_mem_nonneg go ge st rest _ row h

theorem swMatrix_mem_nonneg (go ge st : ℚ) (S : List (List ℚ))
    (row : List Cell) (hrow : row ∈ swMatrix go ge st S) :
    ∀ c ∈ row, 0 ≤ c.1 := by
  unfold swMatrix at hrow
  rcases List.mem_cons.1 hrow with h | h
  · intro c hc
    rw [h] at hc
    rcases List.eq_of_mem_replicate hc with rfl
    exact le_refl 0
  · exact swRows_mem_nonneg go ge st S _ row h

theorem swRow_headD (go ge st : ℚ) (srow : List ℚ) (prev : List Cell) :
    (swRow go ge st srow prev).getD 0 cell0 = cell0 := by
  unfold swRow
  match prev with
  | [] => rfl
  | d :: prest => rfl

theorem swRows_col0 (go ge st : ℚ) :
    ∀ (L : List (List ℚ)) (prev : List Cell) (row : List Cell),
      row ∈ swRows go ge st L prev → row.getD 0 cell0 = cell0
  | [], _, _, h => by simp [swRows] at h
  | srow :: rest, prev, row, h => by
      simp only [swRows, List.mem_cons] at h
      rcases h with h | h
      · rw [h]; exact swRow_headD go ge st srow prev
      · exact swRows_col0 go ge st rest _ row h

theorem swMatrix_col0 (go ge st : ℚ) (S : List (List ℚ)) (row : List Cell)
    (hrow : row ∈ swMatrix go ge st S) : row.getD 0 cell0 = cell0 := by
  unfold swMatrix at hrow
  rcases List.mem_cons.1 hrow with h | h
  · rw [h]; rfl
  · exact swRows_col0 go ge st S _ row h

theorem swMatrix_row0_cell (go ge st : ℚ) (S : List (List ℚ)) (j : ℕ) :
    cellAt (swMatrix go ge st S) 0 j = cell0 := by
  show ((swMatrix go ge st S).getD 0 []).getD j cell0 = cell0
  have h0 : (swMatrix go ge st S).getD 0 [] = row0 (S.headD []).length := rfl
  rw [h0]
  exact getD_prop (fun c => c = cell0) _ cell0 j
    (fun x hx => List.eq_of_mem_replicate hx) rfl

theorem swMatrix_col0_cell (go ge st : ℚ) (S : List (List ℚ)) (i : ℕ) :
    cellAt (swMatrix go ge st S) i 0 = cell0 := by
  show ((swMatrix go ge st S).getD i []).getD 0 cell0 = cell0
  refine getD_prop (fun row => row.getD 0 cell0 = cell0) _ [] i ?_ rfl
  intro row hrow
  exact swMatrix_col0 go ge st S row hrow

theorem swMatrix_cell_nonneg (go ge st : ℚ) (S : List (List ℚ)) (i j : ℕ) :
    0 ≤ Hval (swMatrix go ge st S) i j := by
  show 0 ≤ (((swMatrix go ge st S).getD i []).getD j cell0).1
  refine getD_prop (fun row => 0 ≤ (row.getD j cell0).1) _ [] i ?_ ?_
  · intro row hrow
    exact getD_prop (fun c => 0 ≤ c.1) row cell0 j
      (swMatrix_mem_nonneg go ge st S row hrow) (le_refl 0)
  · exact getD_prop (fun c => 0 ≤ c.1) [] cell0 j (by simp) (le_refl 0)

/-! ### Claim theorems, part 1 -/

/-- Claim C8: for every input similarity matrix and parameters, the H
matrix computed by `smith_waterman_alignment` has its entire first row
and first column equal to the zero cell, and every cell of H is
non-negative (out-of-range lookups give the zero cell as well). -/
theorem C8_H_boundary_and_nonneg (go ge st : ℚ) (S : List (List ℚ)) (i j : ℕ) :
    cellAt (swMatrix go ge st S) 0 j = cell0 ∧
    cellAt (swMatrix go ge st S) i 0 = cell0 ∧
    0 ≤ Hval (swMatrix go ge st S) i j :=
  ⟨swMatrix_row0_cell go ge st S j, swMatrix_col0_cell go ge st S i,
    swMatrix_cell_nonneg go ge st S i j⟩

/-- Claim C10: `filter_alignments_adaptive` preserves the relative order
of its input: the output is a subsequence of the input list, so kept
records appear in exactly their original order. -/
theorem C10_filter_is_subsequence (l : List AlignmentRec) (S : List (List ℚ)) :
    List.Sublist (filter_alignments_adaptive l S) l := by
  match l with
  | [] => exact List.Sublist.refl []
  | best :: rest =>
      unfold filter_alignments_adaptive
      exact List.filter_sublist _

/-- Claim C9: for every input string whose cleaned sequence (restricted
to the canonical 20-letter residue alphabet) has fewer than 2 residues,
`compute_chunk_descriptors` returns the documented fallback descriptor
vector: every biochemical quantity zero, the structural fractions
`helix_fraction`, `sheet_fraction`, `disorder_fraction` zero, and
`surface_exposed_fraction` equal to the neutral default 0.5, without
consulting the descriptor provider. -/
theorem C9_fallback_descriptors (analyze : List Char → Descriptors)
    (s : List Char) (h : (cleanSeq s).length < 2) :
    compute_chunk_descriptors analyze s = fallbackDescriptors s.length ∧
    (compute_chunk_descriptors analyze s).aromaticity = 0 ∧
    (compute_chunk_descriptors analyze s).aliphatic_fraction = 0 ∧
    (compute_chunk_descriptors analyze s).GRAVY = 0 ∧
    (compute_chunk_descriptors analyze s).hydrophobic_fraction = 0 ∧
    (compute_chunk_descriptors analyze s).polar_fraction = 0 ∧
    (compute_chunk_descriptors analyze s).instability_index = 0 ∧
    (compute_chunk_descriptors analyze s).charge_at_pH7 = 0 ∧
    (compute_chunk_descriptors analyze s).positive_fraction = 0 ∧
    (compute_chunk_descriptors analyze s).negative_fraction = 0 ∧
    (compute_chunk_descriptors analyze s).shannon_entropy = 0 ∧
    (compute_chunk_descriptors analyze s).helix_fraction = 0 ∧
    (compute_chunk_descriptors analyze s).sheet_fraction = 0 ∧
    (compute_chunk_descriptors analyze s).disorder_fraction = 0 ∧
    (compute_chunk_descriptors analyze s).surface_exposed_fraction = 1 / 2 := by
  have he : compute_chunk_descriptors analyze s = fallbackDescriptors s.length := by
    unfold compute_chunk_descriptors
    rw [if_pos h]
  rw [he]
  exact ⟨rfl, rfl, rfl, rfl, rfl, rfl, rfl, rfl, rfl, rfl, rfl, rfl, rfl, rfl, rfl⟩

/-- Witness for C9 at the concrete sequence `['a']`, whose cleaned form
has a single residue. -/
theorem C9_fallback_descriptors_witness :
    (cleanSeq ['a']).length < 2 ∧
    compute_chunk_descriptors (fun _ => fallbackDescriptors 0) ['a']
      = fallbackDescriptors 1 :=
  ⟨by decide, (C9_fallback_descriptors (fun _ => fallbackDescriptors 0) ['a']
      (by decide)).1⟩

/-- Claim C1 (code bug): `find_all_alignments` promises non-overlapping
alignments (its docstring and the spec's mutual-exclusion invariant),
but on `C1mat` with the repository's default parameters
(`gap_open = -0.2`, `gap_extend = -0.1`, `score_threshold = 0.5`,
`min_score = 0.3`, `min_chunks = 2`) it returns two records whose
bounding rectangles overlap: `h_range`s `(1,2)` and `(0,1)` intersect,
and `b_range`s `(1,2)` and `(2,3)` intersect. -/
theorem C1_overlapping_rectangles :
    (find_all_alignments C1mat (-2/10) (-1/10) (5/10) (3/10) 2).map
        (fun r => (r.h_range, r.b_range))
      = [((1, 2), (1, 2)), ((0, 1), (2, 3))] ∧
    rectsOverlap
      ((find_all_alignments C1mat (-2/10) (-1/10) (5/10) (3/10) 2).getD 0 emptyRec)
      ((find_all_alignments C1mat (-2/10) (-1/10) (5/10) (3/10) 2).getD 1 emptyRec) := by
  constructor
  · with_unfolding_all decide
  · unfold rectsOverlap
    with_unfolding_all decide

/-- Counterexample to claim C2 as stated: the first (best) record is not
always retained.  `C2rec` has continuity 1/3 < 1/2, so it fails its own
adaptive continuity threshold `max(0.5, 0.6 * best.continuity)` and
`filter_alignments_adaptive` returns the empty list, which does not
contain the first input record. -/
theorem C2_counterexample :
    filter_alignments_adaptive [C2rec] [[1]] = [] ∧
    C2rec ∉ filter_alignments_adaptive [C2rec] [[1]] := by
  constructor
  · with_unfolding_all decide
  · intro h
    rw [show filter_alignments_adaptive [C2rec] [[1]] = [] by
      with_unfolding_all decide] at h
    exact List.not_mem_nil _ h

/-- Counterexample to claim C3 as stated: on `C3mat` with
`gap_open = gap_extend = -1`, `score_threshold = 0.1`,
`min_score = 0.1`, `min_chunks = 2` the extraction loop returns scores
`[1.54, 1.6]`: the second record scores strictly higher than the first,
because masking the first rectangle raised its negative cells to 0. -/
theorem C3_counterexample :
    (find_all_alignments C3mat (-1) (-1) (1/10) (1/10) 2).map (fun r => r.score)
      = [77/50, 8/5] ∧
    ((find_all_alignments C3mat (-1) (-1) (1/10) (1/10) 2).getD 0 emptyRec).score
      < ((find_all_alignments C3mat (-1) (-1) (1/10) (1/10) 2).getD 1 emptyRec).score := by
  constructor
  · with_unfolding_all decide
  · with_unfolding_all decide

/-- Counterexample to claim C4 as stated: at cell `(2, 2)` of the DP
matrix of `C4mat`, the value computed by the code (which uses the
diagonal predecessor `H[i-1][j-1]` in the match candidate, giving 2)
differs from the value demanded by the spec text's recurrence
`diag = H[i-1][j] + shifted` (which gives 1): the match candidate used
by the code is not `H[i-1][j]` plus the shifted similarity. -/
theorem C4_counterexample :
    Hval C4H 2 2 = 2 ∧
    max4 0 (Hval C4H 1 2 + (Sval C4mat 1 1 - 0))
        (Hval C4H 1 2 + (if Tcode C4H 1 2 = 2 then (-1) else (-1)))
        (Hval C4H 2 1 + (if Tcode C4H 2 1 = 3 then (-1) else (-1))) = 1 ∧
    Hval C4H 2 2 ≠
      max4 0 (Hval C4H 1 2 + (Sval C4mat 1 1 - 0))
        (Hval C4H 1 2 + (if Tcode C4H 1 2 = 2 then (-1) else (-1)))
        (Hval C4H 2 1 + (if Tcode C4H 2 1 = 3 then (-1) else (-1))) := by
  refine ⟨?_, ?_, ?_⟩
  · with_unfolding_all decide
  · with_unfolding_all decide
  · with_unfolding_all decide

/-! ### The cell-level recurrence of the DP fill -/

theorem getD_mem {α : Type} :
    ∀ (L : List α) (i : ℕ) (d : α), i < L.length → L.getD i d ∈ L
  | a :: _, 0, _, _ => List.mem_cons_self a _
  | _ :: t, i + 1, d, h =>
      List.mem_cons_of_mem _ (getD_mem t i d (Nat.lt_of_succ_lt_succ h))

theorem swRowGo_length (go ge st : ℚ) :
    ∀ (srow : List ℚ) (d : Cell) (p : List Cell) (l : Cell),
      (swRowGo go ge st srow d p l).length = min srow.length p.length
  | [], _, _, _ => by simp [swRowGo]
  | _ :: _, _, [], _ => by simp [swRowGo]
  | s :: srest, d, u :: prest, l => by
      simp only [swRowGo, List.length_cons]
      rw [swRowGo_length go ge st srest u prest _]
      omega

theorem swRow_length (go ge st : ℚ) (srow : List ℚ) (d : Cell) (prest : List Cell) :
    (swRow go ge st srow (d :: prest)).length = min srow.length prest.length + 1 := by
  simp only [swRow, List.length_cons]
  rw [swRowGo_length]

theorem swRowGo_getD_succ (go ge st : ℚ) :
    ∀ (k : ℕ) (srow : List ℚ) (d : Cell) (p : List Cell) (l : Cell),
      k + 1 < srow.length → k + 1 < p.length →
      (swRowGo go ge st srow d p l).getD (k + 1) cell0 =
        swStep go ge st (srow.getD (k + 1) 0) (p.getD k cell0) (p.getD (k + 1) cell0)
          ((swRowGo go ge st srow d p l).getD k cell0) := by
  intro k
  induction k with
  | zero =>
      intro srow d p l hs hp
      match srow, p with
      | [], _ => simp at hs
      | [_], _ => simp at hs
      | _ :: _ :: _, [] => simp at hp
      | _ :: _ :: _, [_] => simp at hp
      | s :: s' :: sr, u :: u' :: pr => rfl
  | succ k ih =>
      intro srow d p l hs hp
      match srow, p with
      | [], _ => simp at hs
      | _ :: _, [] => simp at hp
      | s :: sr, u :: pr =>
          have h1 : k + 1 < sr.length := by
            simp only [List.length_cons] at hs; omega
          have h2 : k + 1 < pr.length := by
            simp only [List.length_cons] at hp; omega
          have e : swRowGo go ge st (s :: sr) d (u :: pr) l
              = swStep go ge st s d u l ::
                  swRowGo go ge st sr u pr (swStep go ge st s d u l) := rfl
          rw [e]
          simp only [List.getD_cons_succ]
          exact ih sr u pr (swStep go ge st s d u l) h1 h2

theorem swRow_getD_succ (go ge st : ℚ) (k : ℕ) (srow : List ℚ) (prev : List Cell)
    (hk : k < srow.length) (hk2 : k + 1 < prev.length) :
    (swRow go ge st srow prev).getD (k + 1) cell0 =
      swStep go ge st (srow.getD k 0) (prev.getD k cell0) (prev.getD (k + 1) cell0)
        ((swRow go ge st srow prev).getD k cell0) := by
  cases prev with
  | nil => simp at hk2
  | cons d prest =>
      cases k with
      | zero =>
          cases srow with
          | nil => simp at hk
          | cons s sr =>
              cases prest with
              | nil => simp at hk2
              | cons u pr => rfl
      | succ k =>
          show (cell0 :: swRowGo go ge st srow d prest cell0).getD (k + 2) cell0 = _
          simp only [List.getD_cons_succ]
          rw [swRowGo_getD_succ go ge st k srow d prest cell0 hk
            (by simp only [List.length_cons] at hk2; omega)]
          rfl

theorem swRows_getD_succ (go ge st : ℚ) :
    ∀ (L : List (List ℚ)) (prev : List Cell) (i : ℕ), i < L.length →
      (prev :: swRows go ge st L prev).getD (i + 1) [] =
        swRow go ge st (L.getD i []) ((prev :: swRows go ge st L prev).getD i [])
  | [], _, _, h => by simp at h
  | srow :: rest, prev, 0, _ => rfl
  | srow :: rest, prev, i + 1, h => by
      have h' : i < rest.length := by
        simp only [List.length_cons] at h; omega
      have e : swRows go ge st (srow :: rest) prev
          = swRow go ge st srow prev ::
              swRows go ge st rest (swRow go ge st srow prev) := rfl
      show ((prev :: swRows go ge st (srow :: rest) prev).getD (i + 2) []) = _
      rw [e]
      simp only [List.getD_cons_succ]
      exact swRows_getD_succ go ge st rest (swRow go ge st srow prev) i h'

theorem swMatrix_row_succ (go ge st : ℚ) (S : List (List ℚ)) (i : ℕ)
    (hi : i < S.length) :
    (swMatrix go ge st S).getD (i + 1) [] =
      swRow go ge st (S.getD i []) ((swMatrix go ge st S).getD i []) :=
  swRows_getD_succ go ge st S (row0 (S.headD []).length) i hi

theorem swMatrix_row_length (go ge st : ℚ) (S : List (List ℚ)) (m : ℕ)
    (hm : (S.headD []).length = m) (hrect : ∀ row ∈ S, row.length = m) :
    ∀ i : ℕ, i ≤ S.length → ((swMatrix go ge st S).getD i []).length = m + 1 := by
  intro i
  induction i with
  | zero =>
      intro _
      show (row0 (S.headD []).length).length = m + 1
      unfold row0
      rw [List.length_replicate, hm]
  | succ i ih =>
      intro hi
      have hiS : i < S.length := by omega
      rw [swMatrix_row_succ go ge st S i hiS]
      have hprev : ((swMatrix go ge st S).getD i []).length = m + 1 :=
        ih (by omega)
      have hsrow : (S.getD i []).length = m :=
        hrect (S.getD i []) (getD_mem S i [] hiS)
      match h : (swMatrix go ge st S).getD i [], hprev with
      | d :: prest, hprev =>
          rw [swRow_length]
          simp only [List.length_cons] at hprev
          omega

theorem swMatrix_recurrence (go ge st : ℚ) (S : List (List ℚ)) (m : ℕ)
    (hm : (S.headD []).length = m) (hrect : ∀ row ∈ S, row.length = m)
    (i j : ℕ) (hi : i < S.length) (hj : j < m) :
    cellAt (swMatrix go ge st S) (i + 1) (j + 1) =
      swStep go ge st (Sval S i j)
        (cellAt (swMatrix go ge st S) i j)
        (cellAt (swMatrix go ge st S) i (j + 1))
        (cellAt (swMatrix go ge st S) (i + 1) j) := by
  have hrow := swMatrix_row_succ go ge st S i hi
  have hsrow : (S.getD i []).length = m :=
    hrect (S.getD i []) (getD_mem S i [] hi)
  have hprevlen : ((swMatrix go ge st S).getD i []).length = m + 1 :=
    swMatrix_row_length go ge st S m hm hrect i (le_of_lt hi)
  show ((swMatrix go ge st S).getD (i + 1) []).getD (j + 1) cell0 = _
  rw [hrow]
  rw [swRow_getD_succ go ge st j (S.getD i []) ((swMatrix go ge st S).getD i [])
    (by omega) (by omega)]
  rw [← hrow]
  rfl

/-- Claim C4 (amended): in `smith_waterman_alignment`, for every
rectangular matrix `S` and every interior cell, the diagonal/match
candidate used in the recurrence is `H[i-1][j-1]` plus the shifted
similarity `S[i-1][j-1] - score_threshold` (the spec text's
`H[i-1][j]` is a typo); stated at cell `(i+1, j+1)`, the H value is the
four-way maximum over 0, this match candidate, and the two gap
candidates, and the traceback code is the first index attaining it. -/
theorem C4_match_candidate_amended (go ge st : ℚ) (S : List (List ℚ)) (m : ℕ)
    (hm : (S.headD []).length = m) (hrect : ∀ row ∈ S, row.length = m)
    (i j : ℕ) (hi : i < S.length) (hj : j < m) :
    Hval (swMatrix go ge st S) (i + 1) (j + 1) =
      max4 0 (Hval (swMatrix go ge st S) i j + (Sval S i j - st))
        (Hval (swMatrix go ge st S) i (j + 1) +
          (if Tcode (swMatrix go ge st S) i (j + 1) = 2 then ge else go))
        (Hval (swMatrix go ge st S) (i + 1) j +
          (if Tcode (swMatrix go ge st S) (i + 1) j = 3 then ge else go)) ∧
    Tcode (swMatrix go ge st S) (i + 1) (j + 1) =
      argmax4 0 (Hval (swMatrix go ge st S) i j + (Sval S i j - st))
        (Hval (swMatrix go ge st S) i (j + 1) +
          (if Tcode (swMatrix go ge st S) i (j + 1) = 2 then ge else go))
        (Hval (swMatrix go ge st S) (i + 1) j +
          (if Tcode (swMatrix go ge st S) (i + 1) j = 3 then ge else go)) := by
  have h := swMatrix_recurrence go ge st S m hm hrect i j hi hj
  constructor
  · show (cellAt (swMatrix go ge st S) (i + 1) (j + 1)).1 = _
    rw [h]
    rfl
  · show (cellAt (swMatrix go ge st S) (i + 1) (j + 1)).2 = _
    rw [h]
    rfl

/-! ### Adaptive filter: subset and best-record retention -/

theorem qmax_le_iff (a b c : ℚ) : qmax a b ≤ c ↔ a ≤ c ∧ b ≤ c := by
  unfold qmax
  split
  · rename_i h
    exact ⟨fun hb => ⟨by linarith, hb⟩, fun hp => hp.2⟩
  · rename_i h
    exact ⟨fun ha => ⟨ha, by linarith⟩, fun hp => hp.1⟩

theorem passes_true_iff (a b c : ℚ) (r : AlignmentRec) :
    passes a b c r = true ↔
      a ≤ r.avg_similarity ∧ b ≤ r.continuity ∧ c ≤ r.score := by
  unfold passes
  split
  · rename_i hcond
    constructor
    · intro habs
      exact absurd habs (by simp)
    · rintro ⟨h1, h2, h3⟩
      rcases hcond with h | h | h <;> linarith
  · rename_i hcond
    push_neg at hcond
    exact ⟨fun _ => ⟨hcond.1, hcond.2.1, hcond.2.2⟩, fun _ => rfl⟩

/-- Claim C2 (amended): for every non-empty input list, the output of
`filter_alignments_adaptive` only contains input records, and the first
(best) input record is retained exactly when it satisfies its own
thresholds: its average similarity and score are nonnegative and its
continuity is at least 1/2.  (As stated, the claim is false: a best
record with continuity below 1/2, or negative average similarity or
score, is filtered out, see the counterexample.) -/
theorem C2_subset_and_best_retention (best : AlignmentRec)
    (rest : List AlignmentRec) (S : List (List ℚ)) :
    (∀ r, r ∈ filter_alignments_adaptive (best :: rest) S → r ∈ best :: rest) ∧
    (best ∈ filter_alignments_adaptive (best :: rest) S ↔
      0 ≤ best.avg_similarity ∧ 1 / 2 ≤ best.continuity ∧ 0 ≤ best.score) := by
  constructor
  · intro r hr
    unfold filter_alignments_adaptive at hr
    exact List.mem_of_mem_filter hr
  · unfold filter_alignments_adaptive
    rw [List.mem_filter, passes_true_iff, qmax_le_iff]
    constructor
    · rintro ⟨-, h1, ⟨h2a, h2b⟩, h3⟩
      exact ⟨by linarith, h2a, by linarith⟩
    · rintro ⟨h1, h2, h3⟩
      exact ⟨List.mem_cons_self _ _,
        by linarith, ⟨h2, by linarith⟩, by linarith⟩

/-- Witness for the amended C2: a record satisfying its own thresholds
is retained, and the output is contained in the input. -/
theorem C2_subset_and_best_retention_witness :
    C2recGood ∈ filter_alignments_adaptive [C2recGood] [[1]] ∧
    C2recGood ∈ [C2recGood] :=
  ⟨by with_unfolding_all decide,
    (C2_subset_and_best_retention C2recGood [] [[1]]).1 C2recGood
      (by with_unfolding_all decide)⟩

/-! ### Average similarity is computed from the original matrix -/

/-- Claim C7: the loop of `find_all_alignments` is pure in the original
matrix: masking mutates only the working matrix `W`, and each produced
record's `avg_similarity` is the mean of the entries of the original
matrix `S` over the record's discovered pairs, for every working matrix
and fuel (in particular for the initial call where `W = S`). -/
theorem C7_avg_similarity_from_original (S : List (List ℚ)) (go ge st ms : ℚ)
    (mc : ℕ) :
    ∀ (fuel : ℕ) (W : List (List ℚ)) (r : AlignmentRec),
      r ∈ findAllAux S go ge st ms mc fuel W →
      r.avg_similarity = sumAt S r.alignment / (r.num_chunks : ℚ)
  | 0, _, _, h => by simp [findAllAux] at h
  | fuel + 1, W, r, h => by
      simp only [findAllAux] at h
      split at h
      · simp at h
      · rcases List.mem_cons.1 h with h | h
        · rw [h]
          rfl
        · exact C7_avg_similarity_from_original S go ge st ms mc fuel _ r h

/-- Witness for C7 on a concrete one-cell matrix. -/
theorem C7_avg_similarity_from_original_witness :
    (mkRecord [[(1 : ℚ)]] 1 [(0, 0)]
        ∈ findAllAux [[(1 : ℚ)]] (-1) (-1) 0 (1 / 2) 1 2 [[(1 : ℚ)]]) ∧
    (mkRecord [[(1 : ℚ)]] 1 [(0, 0)]).avg_similarity
      = sumAt [[(1 : ℚ)]] (mkRecord [[(1 : ℚ)]] 1 [(0, 0)]).alignment
          / ((mkRecord [[(1 : ℚ)]] 1 [(0, 0)]).num_chunks : ℚ) :=
  ⟨by with_unfolding_all decide,
    C7_avg_similarity_from_original [[(1 : ℚ)]] (-1) (-1) 0 (1 / 2) 1 2
      [[(1 : ℚ)]] (mkRecord [[(1 : ℚ)]] 1 [(0, 0)])
      (by with_unfolding_all decide)⟩

/-! ### Strict monotonicity of traceback pairs and continuity bounds -/

theorem tracebackFuel_bounds_chain (H : List (List Cell)) :
    ∀ (fuel x y : ℕ),
      (∀ p ∈ tracebackFuel H fuel x y, p.1 < x ∧ p.2 < y) ∧
      List.Chain' (fun p q : ℕ × ℕ => q.1 < p.1 ∧ q.2 < p.2)
        (tracebackFuel H fuel x y)
  | 0, _, _ => by simp [tracebackFuel]
  | fuel + 1, x, y => by
      unfold tracebackFuel
      split
      · simp
      · rename_i hstop
        push_neg at hstop
        obtain ⟨hx0, hy0, -⟩ := hstop
        split
        · have ih := tracebackFuel_bounds_chain H fuel (x - 1) (y - 1)
          constructor
          · intro p hp
            rcases List.mem_cons.1 hp with hp | hp
            · rw [hp]
              constructor <;> omega
            · have := ih.1 p hp
              constructor <;> omega
          · rw [List.chain'_cons']
            refine ⟨?_, ih.2⟩
            intro q hq
            have := ih.1 q (List.mem_of_mem_head? hq)
            exact this
        · split
          · have ih := tracebackFuel_bounds_chain H fuel (x - 1) y
            refine ⟨?_, ih.2⟩
            intro p hp
            have := ih.1 p hp
            constructor <;> omega
          · split
            · have ih := tracebackFuel_bounds_chain H fuel x (y - 1)
              refine ⟨?_, ih.2⟩
              intro p hp
              have := ih.1 p hp
              constructor <;> omega
            · simp

theorem foldl_min_of_le (a : ℕ) :
    ∀ (t : List ℕ), (∀ x ∈ t, a ≤ x) → t.foldl min a = a
  | [], _ => rfl
  | b :: t', h => by
      show t'.foldl min (min a b) = a
      rw [min_eq_left (h b (List.mem_cons_self b t'))]
      exact foldl_min_of_le a t' (fun x hx => h x (List.mem_cons_of_mem _ hx))

theorem chain_lt_head_lt :
    ∀ (a : ℕ) (t : List ℕ), List.Chain' (· < ·) (a :: t) → ∀ x ∈ t, a < x
  | _, [], _, _, hx => by simp at hx
  | a, b :: t', hc, x, hx => by
      have h1 : a < b := (List.chain'_cons.1 hc).1
      rcases List.mem_cons.1 hx with hx | hx
      · omega
      · have := chain_lt_head_lt b t' (List.chain'_cons.1 hc).2 x hx
        omega

theorem ascending_natMin (a : ℕ) (t : List ℕ)
    (hc : List.Chain' (· < ·) (a :: t)) : natMin (a :: t) = a := by
  show t.foldl min a = a
  exact foldl_min_of_le a t (fun x hx => le_of_lt (chain_lt_head_lt a t hc x hx))

theorem ascending_span :
    ∀ (a : ℕ) (t : List ℕ), List.Chain' (· < ·) (a :: t) →
      a + (a :: t).length ≤ natMax (a :: t) + 1
  | _, [], _ => by simp [natMax]
  | a, b :: t, hc => by
      have h1 : a < b := (List.chain'_cons.1 hc).1
      have h2 := ascending_span b t (List.chain'_cons.1 hc).2
      have e : natMax (a :: b :: t) = natMax (b :: t) := by
        show t.foldl max (max a b) = t.foldl max b
        rw [max_eq_right (le_of_lt h1)]
      rw [e]
      simp only [List.length_cons] at h2 ⊢
      omega

theorem ascending_length_le_span (l : List ℕ) (hne : l ≠ [])
    (hc : List.Chain' (· < ·) l) :
    l.length ≤ natMax l - natMin l + 1 := by
  match l, hne with
  | a :: t, _ =>
      have h1 := ascending_span a t hc
      have h2 := ascending_natMin a t hc
      omega

theorem mkRecord_continuity_bounds (S : List (List ℚ)) (score : ℚ)
    (aln : List (ℕ × ℕ)) (hne : aln ≠ [])
    (hchain : List.Chain' (fun p q : ℕ × ℕ => p.1 < q.1 ∧ p.2 < q.2) aln) :
    0 < (mkRecord S score aln).continuity ∧ (mkRecord S score aln).continuity ≤ 1 := by
  have hfst : List.Chain' (· < ·) (aln.map Prod.fst) := by
    rw [List.chain'_map]
    exact hchain.imp (fun a b h => h.1)
  have hnefst : aln.map Prod.fst ≠ [] := by
    simpa using hne
  have hspan := ascending_length_le_span (aln.map Prod.fst) hnefst hfst
  have hlen : (aln.map Prod.fst).length = aln.length := by simp
  rw [hlen] at hspan
  have hpos : 0 < aln.length := List.length_pos.2 hne
  have hcont : (mkRecord S score aln).continuity
      = (aln.length : ℚ) /
        ((max (natMax (aln.map Prod.fst) - natMin (aln.map Prod.fst) + 1)
          (natMax (aln.map Prod.snd) - natMin (aln.map Prod.snd) + 1) : ℕ) : ℚ) := rfl
  rw [hcont]
  have hA : aln.length ≤ max (natMax (aln.map Prod.fst) - natMin (aln.map Prod.fst) + 1)
      (natMax (aln.map Prod.snd) - natMin (aln.map Prod.snd) + 1) :=
    le_trans hspan (le_max_left _ _)
  have hD : (0 : ℚ) < ((max (natMax (aln.map Prod.fst) - natMin (aln.map Prod.fst) + 1)
      (natMax (aln.map Prod.snd) - natMin (aln.map Prod.snd) + 1) : ℕ) : ℚ) := by
    have : 0 < max (natMax (aln.map Prod.fst) - natMin (aln.map Prod.fst) + 1)
        (natMax (aln.map Prod.snd) - natMin (aln.map Prod.snd) + 1) := by omega
    exact_mod_cast this
  constructor
  · apply div_pos _ hD
    exact_mod_cast hpos
  · rw [div_le_one hD]
    exact_mod_cast hA

/-- Claim C6: assuming `gap_open` and `gap_extend` are negative and
`min_chunks ≥ 1`, every record produced by `find_all_alignments` has a
pair list that is strictly increasing in both coordinates, and its
continuity lies in the half-open interval `(0, 1]`. -/
theorem C6_strictly_increasing_and_continuity (S : List (List ℚ))
    (go ge st ms : ℚ) (mc : ℕ) (hgo : go < 0) (hge : ge < 0) (hmc : 1 ≤ mc) :
    ∀ r ∈ find_all_alignments S go ge st ms mc,
      List.Chain' (fun p q : ℕ × ℕ => p.1 < q.1 ∧ p.2 < q.2) r.alignment ∧
      0 < r.continuity ∧ r.continuity ≤ 1 := by
  have aux : ∀ (fuel : ℕ) (W : List (List ℚ)),
      ∀ r ∈ findAllAux S go ge st ms mc fuel W,
        List.Chain' (fun p q : ℕ × ℕ => p.1 < q.1 ∧ p.2 < q.2) r.alignment ∧
        0 < r.continuity ∧ r.continuity ≤ 1 := by
    intro fuel
    induction fuel with
    | zero =>
        intro W r h
        simp [findAllAux] at h
    | succ fuel ih =>
        intro W r h
        simp only [findAllAux] at h
        split at h
        · simp at h
        · rename_i hacc
          push_neg at hacc
          rcases List.mem_cons.1 h with h | h
          · have hchain : List.Chain'
                (fun p q : ℕ × ℕ => p.1 < q.1 ∧ p.2 < q.2)
                (smith_waterman_alignment W go ge st).2.1 := by
              show List.Chain' _ (List.reverse _)
              rw [List.chain'_reverse]
              exact (tracebackFuel_bounds_chain (swMatrix go ge st W) _ _ _).2
            have hne : (smith_waterman_alignment W go ge st).2.1 ≠ [] := by
              have : 0 < (smith_waterman_alignment W go ge st).2.1.length := by
                omega
              exact List.length_pos.1 this
            have hb := mkRecord_continuity_bounds S
              (smith_waterman_alignment W go ge st).1
              (smith_waterman_alignment W go ge st).2.1 hne hchain
            rw [h]
            exact ⟨hchain, hb⟩
          · exact ih _ r h
  exact aux _ S

/-- Witness for C6 on a concrete one-cell matrix with the default-sign
parameters. -/
theorem C6_strictly_increasing_and_continuity_witness :
    ((-1 : ℚ) < 0 ∧ (-1 : ℚ) < 0 ∧ (1 : ℕ) ≤ 1 ∧
      mkRecord [[(1 : ℚ)]] 1 [(0, 0)]
        ∈ find_all_alignments [[(1 : ℚ)]] (-1) (-1) 0 (1 / 2) 1) ∧
    (0 < (mkRecord [[(1 : ℚ)]] 1 [(0, 0)]).continuity ∧
      (mkRecord [[(1 : ℚ)]] 1 [(0, 0)]).continuity ≤ 1) :=
  ⟨⟨by decide, by decide, by decide, by with_unfolding_all decide⟩,
    (C6_strictly_increasing_and_continuity [[(1 : ℚ)]] (-1) (-1) 0 (1 / 2) 1
      (by decide) (by decide) (by decide)
      (mkRecord [[(1 : ℚ)]] 1 [(0, 0)])
      (by with_unfolding_all decide)).2⟩

/-! ### Facts about the four-way argmax -/

theorem argmax4_cases (a b c d : ℚ) :
    argmax4 a b c d = 0 ∨ argmax4 a b c d = 1 ∨
    argmax4 a b c d = 2 ∨ argmax4 a b c d = 3 := by
  unfold argmax4
  split_ifs <;> simp

theorem argmax4_zero_val (b c d : ℚ) (h : argmax4 0 b c d = 0) :
    max4 0 b c d = 0 := by
  unfold argmax4 at h
  unfold max4 qmax
  split_ifs at h ⊢ <;> first | rfl | linarith | omega

theorem argmax4_one_val (b c d : ℚ) (h : argmax4 0 b c d = 1) :
    max4 0 b c d = b := by
  unfold argmax4 at h
  unfold max4 qmax
  split_ifs at h ⊢ <;> first | rfl | linarith | omega

theorem argmax4_two_val (b c d : ℚ) (h : argmax4 0 b c d = 2) :
    max4 0 b c d = c := by
  unfold argmax4 at h
  unfold max4 qmax
  split_ifs at h ⊢ <;> first | rfl | linarith | omega

theorem argmax4_three_val (b c d : ℚ) (h : argmax4 0 b c d = 3) :
    max4 0 b c d = d := by
  unfold argmax4 at h
  unfold max4 qmax
  split_ifs at h ⊢ <;> first | rfl | linarith | omega

/-! ### Zero cells have the stop code -/

theorem argmax4_of_val_zero (b c d : ℚ) (h : max4 0 b c d = 0) :
    argmax4 0 b c d = 0 := by
  rcases argmax4_cases 0 b c d with h0 | h1 | h2 | h3
  · exact h0
  · exfalso
    have hv := argmax4_one_val b c d h1
    unfold argmax4 at h1
    split_ifs at h1 <;> linarith [hv.symm.trans h]
  · exfalso
    have hv := argmax4_two_val b c d h2
    unfold argmax4 at h2
    split_ifs at h2 <;> linarith [hv.symm.trans h]
  · exfalso
    have hv := argmax4_three_val b c d h3
    unfold argmax4 at h3
    split_ifs at h3 <;> linarith [hv.symm.trans h]

theorem swMatrix_zero_val_zero_code (go ge st : ℚ) (S : List (List ℚ)) (m : ℕ)
    (hm : (S.headD []).length = m) (hrect : ∀ row ∈ S, row.length = m)
    (x y : ℕ) (hx : x ≤ S.length) (hy : y ≤ m)
    (h0 : Hval (swMatrix go ge st S) x y = 0) :
    Tcode (swMatrix go ge st S) x y = 0 := by
  match x, y with
  | 0, y =>
      show (cellAt (swMatrix go ge st S) 0 y).2 = 0
      rw [swMatrix_row0_cell]
      rfl
  | x + 1, 0 =>
      show (cellAt (swMatrix go ge st S) (x + 1) 0).2 = 0
      rw [swMatrix_col0_cell]
      rfl
  | x + 1, y + 1 =>
      have hrec := swMatrix_recurrence go ge st S m hm hrect x y
        (by omega) (by omega)
      have hv : Hval (swMatrix go ge st S) (x + 1) (y + 1)
          = (swStep go ge st (Sval S x y)
              (cellAt (swMatrix go ge st S) x y)
              (cellAt (swMatrix go ge st S) x (y + 1))
              (cellAt (swMatrix go ge st S) (x + 1) y)).1 := by
        show (cellAt (swMatrix go ge st S) (x + 1) (y + 1)).1 = _
        rw [hrec]
      have hc : Tcode (swMatrix go ge st S) (x + 1) (y + 1)
          = (swStep go ge st (Sval S x y)
              (cellAt (swMatrix go ge st S) x y)
              (cellAt (swMatrix go ge st S) x (y + 1))
              (cellAt (swMatrix go ge st S) (x + 1) y)).2 := by
        show (cellAt (swMatrix go ge st S) (x + 1) (y + 1)).2 = _
        rw [hrec]
      rw [h0] at hv
      rw [hc]
      exact argmax4_of_val_zero _ _ _ hv.symm

/-! ### With a non-positive gap opening penalty, every traceback from a
positive cell contains a pair whose similarity exceeds the threshold -/

theorem traceback_contains_high_pair (go ge st : ℚ) (hgo : go ≤ 0)
    (S : List (List ℚ)) (m : ℕ)
    (hm : (S.headD []).length = m) (hrect : ∀ row ∈ S, row.length = m) :
    ∀ (fuel x y : ℕ), x + y ≤ fuel → x ≤ S.length → y ≤ m →
      0 < Hval (swMatrix go ge st S) x y →
      ∃ p ∈ tracebackFuel (swMatrix go ge st S) fuel x y,
        st < Sval S p.1 p.2 ∧ p.1 < S.length ∧ p.2 < m := by
  intro fuel
  induction fuel with
  | zero =>
      intro x y hf hx hy hpos
      have hx0 : x = 0 := by omega
      rw [hx0] at hpos
      rw [show Hval (swMatrix go ge st S) 0 y = (cellAt (swMatrix go ge st S) 0 y).1
        from rfl, swMatrix_row0_cell] at hpos
      exact absurd hpos (by norm_num [cell0])
  | succ fuel ih =>
      intro x y hf hx hy hpos
      match x, y with
      | 0, y =>
          rw [show Hval (swMatrix go ge st S) 0 y
            = (cellAt (swMatrix go ge st S) 0 y).1 from rfl,
            swMatrix_row0_cell] at hpos
          exact absurd hpos (by norm_num [cell0])
      | x + 1, 0 =>
          rw [show Hval (swMatrix go ge st S) (x + 1) 0
            = (cellAt (swMatrix go ge st S) (x + 1) 0).1 from rfl,
            swMatrix_col0_cell] at hpos
          exact absurd hpos (by norm_num [cell0])
      | i + 1, j + 1 =>
          have hiN : i < S.length := by omega
          have hjm : j < m := by omega
          have hrec := swMatrix_recurrence go ge st S m hm hrect i j hiN hjm
          have hv : Hval (swMatrix go ge st S) (i + 1) (j + 1)
              = max4 0 (Hval (swMatrix go ge st S) i j + (Sval S i j - st))
                  (Hval (swMatrix go ge st S) i (j + 1) +
                    (if Tcode (swMatrix go ge st S) i (j + 1) = 2 then ge else go))
                  (Hval (swMatrix go ge st S) (i + 1) j +
                    (if Tcode (swMatrix go ge st S) (i + 1) j = 3 then ge else go)) := by
            show (cellAt (swMatrix go ge st S) (i + 1) (j + 1)).1 = _
            rw [hrec]
            rfl
          have hcode : Tcode (swMatrix go ge st S) (i + 1) (j + 1)
              = argmax4 0 (Hval (swMatrix go ge st S) i j + (Sval S i j - st))
                  (Hval (swMatrix go ge st S) i (j + 1) +
                    (if Tcode (swMatrix go ge st S) i (j + 1) = 2 then ge else go))
                  (Hval (swMatrix go ge st S) (i + 1) j +
                    (if Tcode (swMatrix go ge st S) (i + 1) j = 3 then ge else go)) := by
            show (cellAt (swMatrix go ge st S) (i + 1) (j + 1)).2 = _
            rw [hrec]
            rfl
          rw [tracebackFuel]
          rw [if_neg (by push_neg; exact ⟨by omega, by omega, by linarith⟩)]
          rcases argmax4_cases 0 (Hval (swMatrix go ge st S) i j + (Sval S i j - st))
              (Hval (swMatrix go ge st S) i (j + 1) +
                (if Tcode (swMatrix go ge st S) i (j + 1) = 2 then ge else go))
              (Hval (swMatrix go ge st S) (i + 1) j +
                (if Tcode (swMatrix go ge st S) (i + 1) j = 3 then ge else go))
            with h0 | h1 | h2 | h3
          · exfalso
            have := argmax4_zero_val _ _ _ h0
            rw [← hv] at this
            linarith
          · rw [if_pos (hcode.trans h1)]
            have hval := argmax4_one_val _ _ _ h1
            rw [← hv] at hval
            by_cases hd : 0 < Hval (swMatrix go ge st S) i j
            · obtain ⟨p, hp, hps⟩ := ih i j (by omega) (by omega) (by omega) hd
              exact ⟨p, List.mem_cons_of_mem _ (by simpa using hp), hps⟩
            · have hd0 : Hval (swMatrix go ge st S) i j = 0 :=
                le_antisymm (le_of_not_lt hd) (swMatrix_cell_nonneg go ge st S i j)
              refine ⟨(i, j), List.mem_cons_self _ _, ?_, hiN, hjm⟩
              rw [hd0] at hval
              show st < Sval S i j
              linarith
          · rw [if_neg (by rw [hcode, h2]; omega), if_pos (hcode.trans h2)]
            have hval := argmax4_two_val _ _ _ h2
            rw [← hv] at hval
            have hu : 0 < Hval (swMatrix go ge st S) i (j + 1) := by
              by_contra hu
              have hu0 : Hval (swMatrix go ge st S) i (j + 1) = 0 :=
                le_antisymm (le_of_not_lt hu) (swMatrix_cell_nonneg go ge st S i (j + 1))
              have hc0 : Tcode (swMatrix go ge st S) i (j + 1) = 0 :=
                swMatrix_zero_val_zero_code go ge st S m hm hrect i (j + 1)
                  (by omega) (by omega) hu0
              rw [hu0, hc0, if_neg (show ¬(0 : ℕ) = 2 by omega)] at hval
              linarith
            obtain ⟨p, hp, hps⟩ := ih i (j + 1) (by omega) (by omega) (by omega) hu
            exact ⟨p, by simpa using hp, hps⟩
          · rw [if_neg (by rw [hcode, h3]; omega), if_neg (by rw [hcode, h3]; omega),
              if_pos (hcode.trans h3)]
            have hval := argmax4_three_val _ _ _ h3
            rw [← hv] at hval
            have hl : 0 < Hval (swMatrix go ge st S) (i + 1) j := by
              by_contra hl
              have hl0 : Hval (swMatrix go ge st S) (i + 1) j = 0 :=
                le_antisymm (le_of_not_lt hl) (swMatrix_cell_nonneg go ge st S (i + 1) j)
              have hc0 : Tcode (swMatrix go ge st S) (i + 1) j = 0 :=
                swMatrix_zero_val_zero_code go ge st S m hm hrect (i + 1) j
                  (by omega) (by omega) hl0
              rw [hl0, hc0, if_neg (show ¬(0 : ℕ) = 3 by omega)] at hval
              linarith
            obtain ⟨p, hp, hps⟩ := ih (i + 1) j (by omega) (by omega) (by omega) hl
            exact ⟨p, by simpa using hp, hps⟩

/-! ### The tracked maximum is a realised in-bounds cell value -/

theorem drop_one_getD {α : Type} (L : List α) (k : ℕ) (d : α) :
    (L.drop 1).getD k d = L.getD (k + 1) d := by
  cases L <;> rfl

theorem scanRow_mem (i : ℕ) :
    ∀ (j : ℕ) (cs : List Cell) (v : ℚ) (x y : ℕ),
      (v, x, y) ∈ scanRow i j cs →
      x = i ∧ j ≤ y ∧ y < j + cs.length ∧ v = (cs.getD (y - j) cell0).1
  | j, [], v, x, y, h => by simp [scanRow] at h
  | j, c :: cs, v, x, y, h => by
      simp only [scanRow, List.mem_cons] at h
      rcases h with h | h
      · obtain ⟨rfl, rfl, rfl⟩ : v = c.1 ∧ x = i ∧ y = j := by
          simpa [Prod.ext_iff] using h
        exact ⟨rfl, le_refl _, by simp, by simp⟩
      · obtain ⟨hx, hy1, hy2, hv⟩ := scanRow_mem i (j + 1) cs v x y h
        refine ⟨hx, by omega, by simp only [List.length_cons]; omega, ?_⟩
        rw [hv, show y - j = (y - (j + 1)) + 1 by omega, List.getD_cons_succ]

theorem scanRows_mem :
    ∀ (i0 : ℕ) (rows : List (List Cell)) (v : ℚ) (x y : ℕ),
      (v, x, y) ∈ scanRows i0 rows →
      i0 ≤ x ∧ x < i0 + rows.length ∧ 1 ≤ y ∧
        y < ((rows.getD (x - i0) []).drop 1).length + 1 ∧
        v = (((rows.getD (x - i0) []).drop 1).getD (y - 1) cell0).1
  | i0, [], v, x, y, h => by simp [scanRows] at h
  | i0, r :: rs, v, x, y, h => by
      simp only [scanRows, List.mem_append] at h
      rcases h with h | h
      · obtain ⟨hx, hy1, hy2, hv⟩ := scanRow_mem i0 1 (r.drop 1) v x y h
        have e : (r :: rs).getD (x - i0) [] = r := by
          rw [hx, Nat.sub_self]
          rfl
        refine ⟨le_of_eq hx.symm, by simp only [List.length_cons]; omega, hy1, ?_, ?_⟩
        · rw [e]
          omega
        · rw [e]
          exact hv
      · obtain ⟨hx1, hx2, hy1, hy2, hv⟩ := scanRows_mem (i0 + 1) rs v x y h
        have e : (r :: rs).getD (x - i0) [] = rs.getD (x - (i0 + 1)) [] := by
          rw [show x - i0 = (x - (i0 + 1)) + 1 by omega, List.getD_cons_succ]
        refine ⟨by omega, by simp only [List.length_cons]; omega, hy1, ?_, ?_⟩
        · rw [e]; exact hy2
        · rw [e]; exact hv

theorem scanCells_mem (H : List (List Cell)) (v : ℚ) (x y : ℕ)
    (h : (v, x, y) ∈ scanCells H) :
    1 ≤ x ∧ x < H.length ∧ 1 ≤ y ∧ y < (H.getD x []).length ∧ v = Hval H x y := by
  unfold scanCells at h
  obtain ⟨hx1, hx2, hy1, hy2, hv⟩ := scanRows_mem 1 (H.drop 1) v x y h
  have e : (H.drop 1).getD (x - 1) [] = H.getD x [] := by
    rw [drop_one_getD, show x - 1 + 1 = x by omega]
  rw [e] at hy2 hv
  have hdlen : ((H.getD x []).drop 1).length = (H.getD x []).length - 1 := by
    simp
  have hlen : (H.drop 1).length = H.length - 1 := by simp
  refine ⟨hx1, by omega, hy1, by omega, ?_⟩
  rw [hv, drop_one_getD, show y - 1 + 1 = y by omega]
  rfl

theorem foldl_better_mem :
    ∀ (l : List (ℚ × ℕ × ℕ)) (init : ℚ × ℕ × ℕ),
      l.foldl better init = init ∨ l.foldl better init ∈ l
  | [], _ => Or.inl rfl
  | x :: t, init => by
      rcases foldl_better_mem t (better init x) with h | h
      · rw [List.foldl_cons, h]
        unfold better
        split
        · exact Or.inr (List.mem_cons_self _ _)
        · exact Or.inl rfl
      · refine Or.inr (List.mem_cons_of_mem _ ?_)
        rw [List.foldl_cons]
        exact h

theorem swRows_length (go ge st : ℚ) :
    ∀ (L : List (List ℚ)) (prev : List Cell),
      (swRows go ge st L prev).length = L.length
  | [], _ => rfl
  | srow :: rest, prev => by
      simp only [swRows, List.length_cons]
      rw [swRows_length go ge st rest _]

theorem swMatrix_length (go ge st : ℚ) (S : List (List ℚ)) :
    (swMatrix go ge st S).length = S.length + 1 := by
  simp only [swMatrix, List.length_cons]
  rw [swRows_length]

theorem accepted_has_high_pair (go ge st ms : ℚ) (hgo : go ≤ 0) (hms : 0 < ms)
    (W : List (List ℚ)) (m : ℕ) (hm : (W.headD []).length = m)
    (hrect : ∀ row ∈ W, row.length = m)
    (hscore : ms ≤ (smith_waterman_alignment W go ge st).1) :
    ∃ p ∈ (smith_waterman_alignment W go ge st).2.1,
      st < Sval W p.1 p.2 ∧ p.1 < W.length ∧ p.2 < m := by
  have hpos : 0 < (bestCell (swMatrix go ge st W)).1 := lt_of_lt_of_le hms hscore
  rcases foldl_better_mem (scanCells (swMatrix go ge st W)) (0, 0, 0) with h | h
  · exfalso
    have : (bestCell (swMatrix go ge st W)).1 = 0 := by
      show (List.foldl better (0, 0, 0) (scanCells (swMatrix go ge st W))).1 = 0
      rw [h]
    linarith
  · obtain ⟨hx1, hx2, hy1, hy2, hv⟩ :=
      scanCells_mem (swMatrix go ge st W) (bestCell (swMatrix go ge st W)).1
        (bestCell (swMatrix go ge st W)).2.1
        (bestCell (swMatrix go ge st W)).2.2 h
    rw [swMatrix_length] at hx2
    have hrowlen : ((swMatrix go ge st W).getD
        (bestCell (swMatrix go ge st W)).2.1 []).length = m + 1 :=
      swMatrix_row_length go ge st W m hm hrect _ (by omega)
    rw [hrowlen] at hy2
    have hHpos : 0 < Hval (swMatrix go ge st W)
        (bestCell (swMatrix go ge st W)).2.1
        (bestCell (swMatrix go ge st W)).2.2 := by
      rw [← hv]
      exact hpos
    obtain ⟨p, hp, hps⟩ := traceback_contains_high_pair go ge st hgo W m hm hrect
      ((bestCell (swMatrix go ge st W)).2.1 + (bestCell (swMatrix go ge st W)).2.2)
      (bestCell (swMatrix go ge st W)).2.1 (bestCell (swMatrix go ge st W)).2.2
      (le_refl _) (by omega) (by omega) hHpos
    refine ⟨p, ?_, hps⟩
    show p ∈ (tracebackFuel (swMatrix go ge st W) _ _ _).reverse
    rw [List.mem_reverse]
    exact hp

/-! ### Masking strictly decreases the count of above-threshold cells -/

theorem maskRow_length :
    ∀ (j lo hi : ℕ) (r : List ℚ), (maskRow j lo hi r).length = r.length
  | _, _, _, [] => rfl
  | j, lo, hi, _ :: vs => by
      simp only [maskRow, List.length_cons]
      rw [maskRow_length (j + 1) lo hi vs]

theorem maskRowsFrom_length :
    ∀ (i hlo hhi blo bhi : ℕ) (rows : List (List ℚ)),
      (maskRowsFrom i hlo hhi blo bhi rows).length = rows.length
  | _, _, _, _, _, [] => rfl
  | i, hlo, hhi, blo, bhi, _ :: rs => by
      simp only [maskRowsFrom, List.length_cons]
      rw [maskRowsFrom_length (i + 1) hlo hhi blo bhi rs]

theorem maskRowsFrom_rect (m : ℕ) (hlo hhi blo bhi : ℕ) :
    ∀ (i : ℕ) (rows : List (List ℚ)), (∀ row ∈ rows, row.length = m) →
      ∀ row ∈ maskRowsFrom i hlo hhi blo bhi rows, row.length = m
  | _, [], _, _, h => by simp [maskRowsFrom] at h
  | i, r :: rs, hr, row, h => by
      simp only [maskRowsFrom, List.mem_cons] at h
      rcases h with h | h
      · rw [h]
        split
        · rw [maskRow_length]
          exact hr r (List.mem_cons_self r rs)
        · exact hr r (List.mem_cons_self r rs)
      · exact maskRowsFrom_rect m hlo hhi blo bhi (i + 1) rs
          (fun q hq => hr q (List.mem_cons_of_mem _ hq)) row h

theorem maskMatrix_headD_length (W : List (List ℚ)) (hlo hhi blo bhi : ℕ) :
    (((maskMatrix W hlo hhi blo bhi).headD []).length) = (W.headD []).length := by
  cases W with
  | nil => rfl
  | cons r rs =>
      show (if hlo ≤ 0 ∧ 0 ≤ hhi then maskRow 0 blo bhi r else r).length = r.length
      split
      · exact maskRow_length 0 blo bhi r
      · rfl

theorem maskRow_countP_le (st : ℚ) (hst : 0 ≤ st) :
    ∀ (j lo hi : ℕ) (r : List ℚ),
      (maskRow j lo hi r).countP (fun v => decide (st < v))
        ≤ r.countP (fun v => decide (st < v))
  | _, _, _, [] => le_refl _
  | j, lo, hi, v :: vs => by
      show ((if lo ≤ j ∧ j ≤ hi then 0 else v) ::
        maskRow (j + 1) lo hi vs).countP _ ≤ _
      rw [List.countP_cons, List.countP_cons]
      have ht := maskRow_countP_le st hst (j + 1) lo hi vs
      split
      · rw [decide_eq_false (not_lt.2 hst)]
        simp only [Bool.false_eq_true, if_false]
        have : (if decide (st < v) = true then (1 : ℕ) else 0) ≤ 1 := by
          split <;> omega
        omega
      · omega

theorem maskRow_countP_lt (st : ℚ) (hst : 0 ≤ st) :
    ∀ (j lo hi : ℕ) (r : List ℚ) (k : ℕ),
      k < r.length → lo ≤ j + k → j + k ≤ hi → st < r.getD k 0 →
      (maskRow j lo hi r).countP (fun v => decide (st < v))
        < r.countP (fun v => decide (st < v))
  | _, _, _, [], k, hk, _, _, _ => by simp at hk
  | j, lo, hi, v :: vs, 0, _, hlo, hhi, hv => by
      show ((if lo ≤ j ∧ j ≤ hi then 0 else v) ::
        maskRow (j + 1) lo hi vs).countP _ < _
      rw [if_pos ⟨by omega, by omega⟩, List.countP_cons, List.countP_cons]
      have ht := maskRow_countP_le st hst (j + 1) lo hi vs
      have hv' : decide (st < v) = true := decide_eq_true (by simpa using hv)
      rw [decide_eq_false (not_lt.2 hst), hv']
      simp only [Bool.false_eq_true, if_false, if_true]
      omega
  | j, lo, hi, v :: vs, k + 1, hk, hlo, hhi, hv => by
      show ((if lo ≤ j ∧ j ≤ hi then 0 else v) ::
        maskRow (j + 1) lo hi vs).countP _ < _
      rw [List.countP_cons, List.countP_cons]
      have ht := maskRow_countP_lt st hst (j + 1) lo hi vs k
        (by simp only [List.length_cons] at hk; omega) (by omega) (by omega)
        (by simpa using hv)
      have hhead : (if decide (st < (if lo ≤ j ∧ j ≤ hi then (0 : ℚ) else v)) = true
          then (1 : ℕ) else 0) ≤ (if decide (st < v) = true then (1 : ℕ) else 0) := by
        by_cases hmask : lo ≤ j ∧ j ≤ hi
        · rw [if_pos hmask, decide_eq_false (not_lt.2 hst)]
          simp only [Bool.false_eq_true, if_false]
          omega
        · rw [if_neg hmask]
      omega

theorem maskRowsFrom_sum_le (st : ℚ) (hst : 0 ≤ st) (hlo hhi blo bhi : ℕ) :
    ∀ (i : ℕ) (rows : List (List ℚ)),
      ((maskRowsFrom i hlo hhi blo bhi rows).map
        (fun r => r.countP (fun v => decide (st < v)))).sum
        ≤ (rows.map (fun r => r.countP (fun v => decide (st < v)))).sum
  | _, [] => le_refl _
  | i, r :: rs => by
      have e : maskRowsFrom i hlo hhi blo bhi (r :: rs)
          = (if hlo ≤ i ∧ i ≤ hhi then maskRow 0 blo bhi r else r)
            :: maskRowsFrom (i + 1) hlo hhi blo bhi rs := rfl
      rw [e]
      simp only [List.map_cons, List.sum_cons]
      have ht := maskRowsFrom_sum_le st hst hlo hhi blo bhi (i + 1) rs
      have hh : (if hlo ≤ i ∧ i ≤ hhi then maskRow 0 blo bhi r else r).countP
          (fun v => decide (st < v)) ≤ r.countP (fun v => decide (st < v)) := by
        split
        · exact maskRow_countP_le st hst 0 blo bhi r
        · exact le_refl _
      omega

theorem maskRowsFrom_sum_lt (st : ℚ) (hst : 0 ≤ st) (hlo hhi blo bhi : ℕ) :
    ∀ (i : ℕ) (rows : List (List ℚ)) (k b : ℕ),
      k < rows.length → hlo ≤ i + k → i + k ≤ hhi →
      blo ≤ b → b ≤ bhi → b < (rows.getD k []).length →
      st < (rows.getD k []).getD b 0 →
      ((maskRowsFrom i hlo hhi blo bhi rows).map
        (fun r => r.countP (fun v => decide (st < v)))).sum
        < (rows.map (fun r => r.countP (fun v => decide (st < v)))).sum
  | _, [], k, _, hk, _, _, _, _, _, _ => by simp at hk
  | i, r :: rs, 0, b, _, hilo, hihi, hblo, hbhi, hblen, hbv => by
      have e : maskRowsFrom i hlo hhi blo bhi (r :: rs)
          = (if hlo ≤ i ∧ i ≤ hhi then maskRow 0 blo bhi r else r)
            :: maskRowsFrom (i + 1) hlo hhi blo bhi rs := rfl
      rw [e]
      simp only [List.map_cons, List.sum_cons]
      have ht := maskRowsFrom_sum_le st hst hlo hhi blo bhi (i + 1) rs
      rw [if_pos ⟨by omega, by omega⟩]
      have hh := maskRow_countP_lt st hst 0 blo bhi r b
        (by simpa using hblen) (by omega) (by omega) (by simpa using hbv)
      omega
  | i, r :: rs, k + 1, b, hk, hilo, hihi, hblo, hbhi, hblen, hbv => by
      have e : maskRowsFrom i hlo hhi blo bhi (r :: rs)
          = (if hlo ≤ i ∧ i ≤ hhi then maskRow 0 blo bhi r else r)
            :: maskRowsFrom (i + 1) hlo hhi blo bhi rs := rfl
      rw [e]
      simp only [List.map_cons, List.sum_cons]
      have ht := maskRowsFrom_sum_lt st hst hlo hhi blo bhi (i + 1) rs k b
        (by simp only [List.length_cons] at hk; omega) (by omega) (by omega)
        hblo hbhi (by simpa using hblen) (by simpa using hbv)
      have hh : (if hlo ≤ i ∧ i ≤ hhi then maskRow 0 blo bhi r else r).countP
          (fun v => decide (st < v)) ≤ r.countP (fun v => decide (st < v)) := by
        split
        · exact maskRow_countP_le st hst 0 blo bhi r
        · exact le_refl _
      omega

theorem maskMatrix_highCells_lt (st : ℚ) (hst : 0 ≤ st) (W : List (List ℚ))
    (hlo hhi blo bhi h b : ℕ) (hh : h < W.length)
    (hhlo : hlo ≤ h) (hhhi : h ≤ hhi) (hblo : blo ≤ b) (hbhi : b ≤ bhi)
    (hblen : b < (W.getD h []).length) (hv : st < Sval W h b) :
    highCells st (maskMatrix W hlo hhi blo bhi) < highCells st W :=
  maskRowsFrom_sum_lt st hst hlo hhi blo bhi 0 W h b hh
    (by omega) (by omega) hblo hbhi hblen hv

theorem highCells_le (st : ℚ) (m : ℕ) :
    ∀ (W : List (List ℚ)), (∀ row ∈ W, row.length = m) →
      highCells st W ≤ W.length * m
  | [], _ => by simp [highCells]
  | r :: rs, hrect => by
      have e1 : highCells st (r :: rs)
          = r.countP (fun v => decide (st < v)) + highCells st rs := by
        simp [highCells]
      have h1 : r.countP (fun v => decide (st < v)) ≤ m := by
        rw [← hrect r (List.mem_cons_self r rs)]
        exact List.countP_le_length _
      have h2 := highCells_le st m rs
        (fun q hq => hrect q (List.mem_cons_of_mem _ hq))
      have e2 : (r :: rs).length * m = rs.length * m + m := by
        simp only [List.length_cons]
        ring
      omega

/-! ### Bounding-rectangle membership and mask zeroing -/

theorem foldl_min_le_acc : ∀ (t : List ℕ) (acc : ℕ), t.foldl min acc ≤ acc
  | [], acc => le_refl acc
  | b :: t, acc =>
      le_trans (foldl_min_le_acc t (min acc b)) (min_le_left acc b)

theorem foldl_min_le_mem :
    ∀ (t : List ℕ) (acc x : ℕ), x ∈ t → t.foldl min acc ≤ x
  | [], _, _, h => by simp at h
  | b :: t, acc, x, h => by
      rcases List.mem_cons.1 h with h | h
      · rw [h]
        exact le_trans (foldl_min_le_acc t (min acc b)) (min_le_right acc b)
      · exact foldl_min_le_mem t (min acc b) x h

theorem natMin_le_of_mem (l : List ℕ) (x : ℕ) (h : x ∈ l) : natMin l ≤ x := by
  match l, h with
  | a :: t, h =>
      rcases List.mem_cons.1 h with h | h
      · rw [h]
        exact foldl_min_le_acc t a
      · exact foldl_min_le_mem t a x h

theorem acc_le_foldl_max : ∀ (t : List ℕ) (acc : ℕ), acc ≤ t.foldl max acc
  | [], acc => le_refl acc
  | b :: t, acc =>
      le_trans (le_max_left acc b) (acc_le_foldl_max t (max acc b))

theorem mem_le_foldl_max :
    ∀ (t : List ℕ) (acc x : ℕ), x ∈ t → x ≤ t.foldl max acc
  | [], _, _, h => by simp at h
  | b :: t, acc, x, h => by
      rcases List.mem_cons.1 h with h | h
      · rw [h]
        exact le_trans (le_max_right acc b) (acc_le_foldl_max t (max acc b))
      · exact mem_le_foldl_max t (max acc b) x h

theorem le_natMax_of_mem (l : List ℕ) (x : ℕ) (h : x ∈ l) : x ≤ natMax l := by
  match l, h with
  | a :: t, h =>
      rcases List.mem_cons.1 h with h | h
      · rw [h]
        exact acc_le_foldl_max t a
      · exact mem_le_foldl_max t a x h

theorem maskRow_getD_in :
    ∀ (j lo hi : ℕ) (r : List ℚ) (k : ℕ), k < r.length →
      lo ≤ j + k → j + k ≤ hi → (maskRow j lo hi r).getD k 0 = 0
  | _, _, _, [], k, hk, _, _ => by simp at hk
  | j, lo, hi, v :: vs, 0, _, hlo, hhi => by
      show ((if lo ≤ j ∧ j ≤ hi then 0 else v) :: maskRow (j + 1) lo hi vs).getD 0 0 = 0
      rw [if_pos ⟨by omega, by omega⟩]
      rfl
  | j, lo, hi, v :: vs, k + 1, hk, hlo, hhi => by
      show ((if lo ≤ j ∧ j ≤ hi then 0 else v) ::
        maskRow (j + 1) lo hi vs).getD (k + 1) 0 = 0
      rw [List.getD_cons_succ]
      exact maskRow_getD_in (j + 1) lo hi vs k
        (by simp only [List.length_cons] at hk; omega) (by omega) (by omega)

theorem maskRowsFrom_getD (hlo hhi blo bhi : ℕ) :
    ∀ (i : ℕ) (rows : List (List ℚ)) (k : ℕ),
      (maskRowsFrom i hlo hhi blo bhi rows).getD k []
        = if hlo ≤ i + k ∧ i + k ≤ hhi
          then maskRow 0 blo bhi (rows.getD k []) else rows.getD k []
  | _, [], k => by
      show ([] : List ℚ) = _
      split <;> rfl
  | i, r :: rs, 0 => by
      show (if hlo ≤ i ∧ i ≤ hhi then maskRow 0 blo bhi r else r) = _
      simp only [Nat.add_zero]
      rfl
  | i, r :: rs, k + 1 => by
      show (maskRowsFrom (i + 1) hlo hhi blo bhi rs).getD k [] = _
      rw [maskRowsFrom_getD hlo hhi blo bhi (i + 1) rs k]
      have e : i + 1 + k = i + (k + 1) := by omega
      rw [e]
      rfl

theorem maskMatrix_Sval_zero (W : List (List ℚ)) (hlo hhi blo bhi h b : ℕ)
    (hh : h < W.length) (hb : b < (W.getD h []).length)
    (hhlo : hlo ≤ h) (hhhi : h ≤ hhi) (hblo : blo ≤ b) (hbhi : b ≤ bhi) :
    Sval (maskMatrix W hlo hhi blo bhi) h b = 0 := by
  show ((maskMatrix W hlo hhi blo bhi).getD h []).getD b 0 = 0
  unfold maskMatrix
  rw [maskRowsFrom_getD hlo hhi blo bhi 0 W h,
    if_pos ⟨by omega, by omega⟩]
  exact maskRow_getD_in 0 blo bhi (W.getD h []) b hb (by omega) (by omega)

/-! ### Stabilisation of the extraction loop -/

theorem findAllAux_stable (S : List (List ℚ)) (go ge st ms : ℚ) (mc : ℕ)
    (hgo : go ≤ 0) (hst : 0 ≤ st) (hms : 0 < ms) :
    ∀ (fuel1 fuel2 : ℕ) (W : List (List ℚ)) (m : ℕ),
      (W.headD []).length = m → (∀ row ∈ W, row.length = m) →
      highCells st W < fuel1 → highCells st W < fuel2 →
      findAllAux S go ge st ms mc fuel1 W = findAllAux S go ge st ms mc fuel2 W := by
  intro fuel1
  induction fuel1 with
  | zero =>
      intro fuel2 W m hm hrect h1 h2
      omega
  | succ f ih =>
      intro fuel2 W m hm hrect h1 h2
      match fuel2, h2 with
      | g + 1, h2 =>
          simp only [findAllAux]
          by_cases hacc : (smith_waterman_alignment W go ge st).1 < ms ∨
              (smith_waterman_alignment W go ge st).2.1.length < mc
          · rw [if_pos hacc, if_pos hacc]
          · rw [if_neg hacc, if_neg hacc]
            push_neg at hacc
            obtain ⟨hsc, -⟩ := hacc
            obtain ⟨p, hp, hpv, hp1, hp2⟩ :=
              accepted_has_high_pair go ge st ms hgo hms W m hm hrect hsc
            have hrowlen : (W.getD p.1 []).length = m :=
              hrect (W.getD p.1 []) (getD_mem W p.1 [] hp1)
            have hmem1 : p.1 ∈ (smith_waterman_alignment W go ge st).2.1.map Prod.fst :=
              List.mem_map_of_mem Prod.fst hp
            have hmem2 : p.2 ∈ (smith_waterman_alignment W go ge st).2.1.map Prod.snd :=
              List.mem_map_of_mem Prod.snd hp
            have hlt := maskMatrix_highCells_lt st hst W
              (natMin ((smith_waterman_alignment W go ge st).2.1.map Prod.fst))
              (natMax ((smith_waterman_alignment W go ge st).2.1.map Prod.fst))
              (natMin ((smith_waterman_alignment W go ge st).2.1.map Prod.snd))
              (natMax ((smith_waterman_alignment W go ge st).2.1.map Prod.snd))
              p.1 p.2 hp1
              (natMin_le_of_mem _ _ hmem1) (le_natMax_of_mem _ _ hmem1)
              (natMin_le_of_mem _ _ hmem2) (le_natMax_of_mem _ _ hmem2)
              (by omega) hpv
            congr 1
            have e1 : (mkRecord S (smith_waterman_alignment W go ge st).1
                (smith_waterman_alignment W go ge st).2.1).h_range.1
              = natMin ((smith_waterman_alignment W go ge st).2.1.map Prod.fst) := rfl
            have e2 : (mkRecord S (smith_waterman_alignment W go ge st).1
                (smith_waterman_alignment W go ge st).2.1).h_range.2
              = natMax ((smith_waterman_alignment W go ge st).2.1.map Prod.fst) := rfl
            have e3 : (mkRecord S (smith_waterman_alignment W go ge st).1
                (smith_waterman_alignment W go ge st).2.1).b_range.1
              = natMin ((smith_waterman_alignment W go ge st).2.1.map Prod.snd) := rfl
            have e4 : (mkRecord S (smith_waterman_alignment W go ge st).1
                (smith_waterman_alignment W go ge st).2.1).b_range.2
              = natMax ((smith_waterman_alignment W go ge st).2.1.map Prod.snd) := rfl
            rw [e1, e2, e3, e4]
            apply ih g _ m
            · rw [maskMatrix_headD_length]
              exact hm
            · exact maskRowsFrom_rect m _ _ _ _ 0 W hrect
            · omega
            · omega

/-! ### Claim C5 -/

/-- Claim C5: under the spec's parameter contract (section 4.2 declares
`gap_open` and `gap_extend` negative) and the claim's hypotheses
`score_threshold ≥ 0`, `min_score > 0`, `min_chunks ≥ 1`, the extraction
loop of `find_all_alignments` on an `N × M` matrix terminates after at
most `N*M` accepted iterations: the fuel `N*M + 1` already yields the
fixed point (any larger fuel gives the same result), and the reason is
that every accepted record has an alignment pair whose working-matrix
value exceeds `score_threshold`, lies inside the record's bounding
rectangle, and is therefore zeroed by the masking step. -/
theorem C5_extraction_terminates (S : List (List ℚ)) (go ge st ms : ℚ) (mc : ℕ)
    (m : ℕ) (hm : (S.headD []).length = m) (hrect : ∀ row ∈ S, row.length = m)
    (hgo : go < 0) (hge : ge < 0) (hst : 0 ≤ st) (hms : 0 < ms) (hmc : 1 ≤ mc) :
    (∀ fuel : ℕ, S.length * m + 1 ≤ fuel →
      findAllAux S go ge st ms mc fuel S
        = find_all_alignments S go ge st ms mc) ∧
    (∀ (fuel : ℕ) (W : List (List ℚ)),
      (W.headD []).length = m → (∀ row ∈ W, row.length = m) →
      ∀ (r : AlignmentRec) (rest : List AlignmentRec),
        findAllAux S go ge st ms mc fuel W = r :: rest →
        ∃ p ∈ r.alignment,
          st < Sval W p.1 p.2 ∧
          r.h_range.1 ≤ p.1 ∧ p.1 ≤ r.h_range.2 ∧
          r.b_range.1 ≤ p.2 ∧ p.2 ≤ r.b_range.2 ∧
          Sval (maskMatrix W r.h_range.1 r.h_range.2 r.b_range.1 r.b_range.2)
            p.1 p.2 = 0) := by
  constructor
  · intro fuel hfuel
    unfold find_all_alignments
    rw [hm]
    have hmu : highCells st S ≤ S.length * m := highCells_le st m S hrect
    exact findAllAux_stable S go ge st ms mc (le_of_lt hgo) hst hms fuel
      (S.length * m + 1) S m hm hrect (by omega) (by omega)
  · intro fuel W hWm hWrect r rest heq
    match fuel, heq with
    | fuel + 1, heq =>
        simp only [findAllAux] at heq
        by_cases hacc : (smith_waterman_alignment W go ge st).1 < ms ∨
            (smith_waterman_alignment W go ge st).2.1.length < mc
        · rw [if_pos hacc] at heq
          exact absurd heq (by simp)
        · rw [if_neg hacc] at heq
          push_neg at hacc
          obtain ⟨hsc, -⟩ := hacc
          obtain ⟨p, hp, hpv, hp1, hp2⟩ :=
            accepted_has_high_pair go ge st ms (le_of_lt hgo) hms W m hWm hWrect hsc
          have hr : r = mkRecord S (smith_waterman_alignment W go ge st).1
              (smith_waterman_alignment W go ge st).2.1 := by
            injection heq with h1 h2
            exact h1.symm
          have hrowlen : (W.getD p.1 []).length = m :=
            hWrect (W.getD p.1 []) (getD_mem W p.1 [] hp1)
          have hmem1 : p.1 ∈ (smith_waterman_alignment W go ge st).2.1.map Prod.fst :=
            List.mem_map_of_mem Prod.fst hp
          have hmem2 : p.2 ∈ (smith_waterman_alignment W go ge st).2.1.map Prod.snd :=
            List.mem_map_of_mem Prod.snd hp
          have halug : r.alignment = (smith_waterman_alignment W go ge st).2.1 := by
            rw [hr]
            rfl
          have hhr : r.h_range
              = (natMin ((smith_waterman_alignment W go ge st).2.1.map Prod.fst),
                 natMax ((smith_waterman_alignment W go ge st).2.1.map Prod.fst)) := by
            rw [hr]
            rfl
          have hbr : r.b_range
              = (natMin ((smith_waterman_alignment W go ge st).2.1.map Prod.snd),
                 natMax ((smith_waterman_alignment W go ge st).2.1.map Prod.snd)) := by
            rw [hr]
            rfl
          refine ⟨p, ?_, hpv, ?_, ?_, ?_, ?_, ?_⟩
          · rw [halug]
            exact hp
          · rw [hhr]
            exact natMin_le_of_mem _ _ hmem1
          · rw [hhr]
            exact le_natMax_of_mem _ _ hmem1
          · rw [hbr]
            exact natMin_le_of_mem _ _ hmem2
          · rw [hbr]
            exact le_natMax_of_mem _ _ hmem2
          · rw [hhr, hbr]
            exact maskMatrix_Sval_zero W _ _ _ _ p.1 p.2 hp1 (by omega)
              (natMin_le_of_mem _ _ hmem1) (le_natMax_of_mem _ _ hmem1)
              (natMin_le_of_mem _ _ hmem2) (le_natMax_of_mem _ _ hmem2)

/-- Witness for C5 on a concrete one-cell matrix with the default-sign
parameters. -/
theorem C5_extraction_terminates_witness :
    ((([[(1 : ℚ)]] : List (List ℚ)).headD []).length = 1 ∧
      (∀ row ∈ ([[(1 : ℚ)]] : List (List ℚ)), row.length = 1) ∧
      (-1 : ℚ) < 0 ∧ (-1 : ℚ) < 0 ∧ (0 : ℚ) ≤ 0 ∧ (0 : ℚ) < 1 / 2 ∧ (1 : ℕ) ≤ 1 ∧
      ([[(1 : ℚ)]] : List (List ℚ)).length * 1 + 1 ≤ 2) ∧
    findAllAux [[(1 : ℚ)]] (-1) (-1) 0 (1 / 2) 1 2 [[(1 : ℚ)]]
      = find_all_alignments [[(1 : ℚ)]] (-1) (-1) 0 (1 / 2) 1 :=
  ⟨⟨by decide, by decide, by decide, by decide, by decide,
      by with_unfolding_all decide, by decide, by decide⟩,
    (C5_extraction_terminates [[(1 : ℚ)]] (-1) (-1) 0 (1 / 2) 1 1
      (by decide) (by decide) (by decide) (by decide) (by decide)
      (by with_unfolding_all decide) (by decide)).1 2 (by decide)⟩

/-! ### Pointwise monotonicity of the DP fill for a single gap penalty -/

theorem qmax_mono (a1 a2 b1 b2 : ℚ) (ha : a1 ≤ a2) (hb : b1 ≤ b2) :
    qmax a1 b1 ≤ qmax a2 b2 := by
  unfold qmax
  split_ifs <;> linarith

theorem max4_mono (a1 a2 b1 b2 c1 c2 d1 d2 : ℚ)
    (ha : a1 ≤ a2) (hb : b1 ≤ b2) (hc : c1 ≤ c2) (hd : d1 ≤ d2) :
    max4 a1 b1 c1 d1 ≤ max4 a2 b2 c2 d2 :=
  qmax_mono _ _ _ _ (qmax_mono _ _ _ _ (qmax_mono _ _ _ _ ha hb) hc) hd

theorem swStep_val_single (g st s : ℚ) (d u c : Cell) :
    (swStep g g st s d u c).1 = max4 0 (d.1 + (s - st)) (u.1 + g) (c.1 + g) := by
  unfold swStep
  simp only [ite_self]

theorem swRowGo_mono (g st : ℚ) :
    ∀ (l1 l2 : List ℚ) (d1 d2 : Cell) (p1 p2 : List Cell) (c1 c2 : Cell),
      List.Forall₂ (· ≤ ·) l1 l2 →
      List.Forall₂ (fun a b : Cell => a.1 ≤ b.1) p1 p2 →
      d1.1 ≤ d2.1 → c1.1 ≤ c2.1 →
      List.Forall₂ (fun a b : Cell => a.1 ≤ b.1)
        (swRowGo g g st l1 d1 p1 c1) (swRowGo g g st l2 d2 p2 c2) := by
  intro l1
  induction l1 with
  | nil =>
      intro l2 d1 d2 p1 p2 c1 c2 hl hp hd hc
      cases hl
      exact List.Forall₂.nil
  | cons s1 r1 ih =>
      intro l2 d1 d2 p1 p2 c1 c2 hl hp hd hc
      cases hl with
      | cons hs hrest =>
          cases hp with
          | nil => exact List.Forall₂.nil
          | cons hu hq =>
              rename_i s2 r2 u1 u2 q1 q2
              refine List.Forall₂.cons ?_ (ih r2 u1 u2 q1 q2 _ _ hrest hq hu ?_)
              · rw [swStep_val_single, swStep_val_single]
                exact max4_mono _ _ _ _ _ _ _ _ (le_refl 0)
                  (by linarith) (by linarith) (by linarith)
              · rw [swStep_val_single, swStep_val_single]
                exact max4_mono _ _ _ _ _ _ _ _ (le_refl 0)
                  (by linarith) (by linarith) (by linarith)

theorem swRow_mono (g st : ℚ) (l1 l2 : List ℚ) (p1 p2 : List Cell)
    (hl : List.Forall₂ (· ≤ ·) l1 l2)
    (hp : List.Forall₂ (fun a b : Cell => a.1 ≤ b.1) p1 p2) :
    List.Forall₂ (fun a b : Cell => a.1 ≤ b.1)
      (swRow g g st l1 p1) (swRow g g st l2 p2) := by
  cases hp with
  | nil => exact List.Forall₂.cons (le_refl _) List.Forall₂.nil
  | cons hd hq =>
      exact List.Forall₂.cons (le_refl _)
        (swRowGo_mono g st l1 l2 _ _ _ _ cell0 cell0 hl hq hd (le_refl _))

theorem swRows_mono (g st : ℚ) :
    ∀ (L1 L2 : List (List ℚ)) (p1 p2 : List Cell),
      List.Forall₂ (List.Forall₂ (· ≤ ·)) L1 L2 →
      List.Forall₂ (fun a b : Cell => a.1 ≤ b.1) p1 p2 →
      List.Forall₂ (List.Forall₂ (fun a b : Cell => a.1 ≤ b.1))
        (swRows g g st L1 p1) (swRows g g st L2 p2) := by
  intro L1
  induction L1 with
  | nil =>
      intro L2 p1 p2 hL hp
      cases hL
      exact List.Forall₂.nil
  | cons r1 R1 ih =>
      intro L2 p1 p2 hL hp
      cases hL with
      | cons hr hR =>
          rename_i r2 R2
          have hrow := swRow_mono g st r1 r2 p1 p2 hr hp
          exact List.Forall₂.cons hrow (ih R2 _ _ hR hrow)

theorem forall2_headD_length {R : ℚ → ℚ → Prop} :
    ∀ (S1 S2 : List (List ℚ)), List.Forall₂ (List.Forall₂ R) S1 S2 →
      (S1.headD []).length = (S2.headD []).length := by
  intro S1 S2 h
  cases h with
  | nil => rfl
  | cons hh ht => exact List.Forall₂.length_eq hh

theorem swMatrix_mono (g st : ℚ) (S1 S2 : List (List ℚ))
    (hS : List.Forall₂ (List.Forall₂ (· ≤ ·)) S1 S2) :
    List.Forall₂ (List.Forall₂ (fun a b : Cell => a.1 ≤ b.1))
      (swMatrix g g st S1) (swMatrix g g st S2) := by
  unfold swMatrix
  rw [forall2_headD_length S1 S2 hS]
  have hrow0 : List.Forall₂ (fun a b : Cell => a.1 ≤ b.1)
      (row0 (S2.headD []).length) (row0 (S2.headD []).length) := by
    rw [List.forall₂_same]
    intro x _
    exact le_refl _
  exact List.Forall₂.cons hrow0 (swRows_mono g st S1 S2 _ _ hS hrow0)

theorem forall2_drop_one {α : Type} {R : α → α → Prop} (l1 l2 : List α)
    (h : List.Forall₂ R l1 l2) : List.Forall₂ R (l1.drop 1) (l2.drop 1) := by
  cases h with
  | nil => exact List.Forall₂.nil
  | cons _ ht => exact ht

theorem scanRow_forall2 (i : ℕ) :
    ∀ (j : ℕ) (cs1 cs2 : List Cell),
      List.Forall₂ (fun a b : Cell => a.1 ≤ b.1) cs1 cs2 →
      List.Forall₂ (fun a b : ℚ × ℕ × ℕ => a.1 ≤ b.1)
        (scanRow i j cs1) (scanRow i j cs2) := by
  intro j cs1
  induction cs1 generalizing j with
  | nil =>
      intro cs2 h
      cases h
      exact List.Forall₂.nil
  | cons c1 t1 ih =>
      intro cs2 h
      cases h with
      | cons hc ht =>
          exact List.Forall₂.cons hc (ih (j + 1) _ ht)

theorem scanRows_forall2 :
    ∀ (i : ℕ) (rows1 rows2 : List (List Cell)),
      List.Forall₂ (List.Forall₂ (fun a b : Cell => a.1 ≤ b.1)) rows1 rows2 →
      List.Forall₂ (fun a b : ℚ × ℕ × ℕ => a.1 ≤ b.1)
        (scanRows i rows1) (scanRows i rows2) := by
  intro i rows1
  induction rows1 generalizing i with
  | nil =>
      intro rows2 h
      cases h
      exact List.Forall₂.nil
  | cons r1 R1 ih =>
      intro rows2 h
      cases h with
      | cons hr hR =>
          exact List.rel_append
            (scanRow_forall2 i 1 _ _ (forall2_drop_one _ _ hr)) (ih (i + 1) _ hR)

theorem better_fst (acc x : ℚ × ℕ × ℕ) : (better acc x).1 = max acc.1 x.1 := by
  unfold better
  split
  · rename_i h
    exact (max_eq_right (le_of_lt h)).symm
  · rename_i h
    exact (max_eq_left (le_of_not_lt h)).symm

theorem foldl_better_fst_mono :
    ∀ (l1 l2 : List (ℚ × ℕ × ℕ)) (acc1 acc2 : ℚ × ℕ × ℕ),
      List.Forall₂ (fun a b : ℚ × ℕ × ℕ => a.1 ≤ b.1) l1 l2 → acc1.1 ≤ acc2.1 →
      (l1.foldl better acc1).1 ≤ (l2.foldl better acc2).1 := by
  intro l1
  induction l1 with
  | nil =>
      intro l2 acc1 acc2 hl hacc
      cases hl
      exact hacc
  | cons x1 t1 ih =>
      intro l2 acc1 acc2 hl hacc
      cases hl with
      | cons hx ht =>
          rename_i x2 t2
          refine ih t2 _ _ ht ?_
          rw [better_fst, better_fst]
          exact max_le_max hacc hx

theorem score_mono (g st : ℚ) (W1 W2 : List (List ℚ))
    (hle : List.Forall₂ (List.Forall₂ (· ≤ ·)) W1 W2) :
    (smith_waterman_alignment W1 g g st).1 ≤ (smith_waterman_alignment W2 g g st).1 := by
  show (bestCell (swMatrix g g st W1)).1 ≤ (bestCell (swMatrix g g st W2)).1
  exact foldl_better_fst_mono _ _ _ _
    (scanRows_forall2 1 _ _
      (forall2_drop_one _ _ (swMatrix_mono g st W1 W2 hle)))
    (le_refl _)

/-! ### Masking only lowers a nonnegative matrix -/

theorem maskRow_forall2_le (blo bhi : ℕ) :
    ∀ (j : ℕ) (r : List ℚ), (∀ v ∈ r, 0 ≤ v) →
      List.Forall₂ (· ≤ ·) (maskRow j blo bhi r) r
  | _, [], _ => List.Forall₂.nil
  | j, v :: vs, hr => by
      refine List.Forall₂.cons ?_ (maskRow_forall2_le blo bhi (j + 1) vs
        (fun x hx => hr x (List.mem_cons_of_mem _ hx)))
      split
      · exact hr v (List.mem_cons_self v vs)
      · exact le_refl v

theorem maskRowsFrom_forall2_le (hlo hhi blo bhi : ℕ) :
    ∀ (i : ℕ) (rows : List (List ℚ)), (∀ row ∈ rows, ∀ v ∈ row, 0 ≤ v) →
      List.Forall₂ (List.Forall₂ (· ≤ ·)) (maskRowsFrom i hlo hhi blo bhi rows) rows
  | _, [], _ => List.Forall₂.nil
  | i, r :: rs, hr => by
      refine List.Forall₂.cons ?_ (maskRowsFrom_forall2_le hlo hhi blo bhi (i + 1) rs
        (fun q hq => hr q (List.mem_cons_of_mem _ hq)))
      split
      · exact maskRow_forall2_le blo bhi 0 r (hr r (List.mem_cons_self r rs))
      · rw [List.forall₂_same]
        intro x _
        exact le_refl x

theorem maskRow_nonneg (blo bhi : ℕ) :
    ∀ (j : ℕ) (r : List ℚ), (∀ v ∈ r, 0 ≤ v) →
      ∀ v ∈ maskRow j blo bhi r, 0 ≤ v
  | _, [], _, v, hv => by simp [maskRow] at hv
  | j, w :: ws, hr, v, hv => by
      rcases List.mem_cons.1 hv with hv | hv
      · rw [hv]
        split
        · exact le_refl 0
        · exact hr w (List.mem_cons_self w ws)
      · exact maskRow_nonneg blo bhi (j + 1) ws
          (fun x hx => hr x (List.mem_cons_of_mem _ hx)) v hv

theorem maskRowsFrom_nonneg (hlo hhi blo bhi : ℕ) :
    ∀ (i : ℕ) (rows : List (List ℚ)), (∀ row ∈ rows, ∀ v ∈ row, 0 ≤ v) →
      ∀ row ∈ maskRowsFrom i hlo hhi blo bhi rows, ∀ v ∈ row, 0 ≤ v
  | _, [], _, row, hrow => by simp [maskRowsFrom] at hrow
  | i, r :: rs, hr, row, hrow => by
      rcases List.mem_cons.1 hrow with hrow | hrow
      · intro v hv
        rw [hrow] at hv
        revert hv
        split
        · intro hv
          exact maskRow_nonneg blo bhi 0 r (hr r (List.mem_cons_self r rs)) v hv
        · intro hv
          exact hr r (List.mem_cons_self r rs) v hv
      · exact maskRowsFrom_nonneg hlo hhi blo bhi (i + 1) rs
          (fun q hq => hr q (List.mem_cons_of_mem _ hq)) row hrow

theorem findAllAux_head_score (S : List (List ℚ)) (go ge st ms : ℚ) (mc fuel : ℕ)
    (W : List (List ℚ)) (r : AlignmentRec) (l : List AlignmentRec)
    (h : findAllAux S go ge st ms mc fuel W = r :: l) :
    r.score = (smith_waterman_alignment W go ge st).1 := by
  match fuel, h with
  | fuel + 1, h =>
      simp only [findAllAux] at h
      split at h
      · exact absurd h (by simp)
      · injection h with h1 h2
        rw [← h1]
        rfl

/-! ### Claim C3 -/

/-- Claim C3 (amended): the scores of the records returned by
`find_all_alignments` are non-increasing in discovery order provided
the two gap penalties are equal and every entry of the input matrix is
nonnegative (then masking only lowers the working matrix pointwise and
the DP score is monotone).  As stated — for every input matrix — the
claim is false, see the counterexample: raising masked negative cells
to 0 can make a later score strictly larger. -/
theorem C3_scores_nonincreasing_amended (S : List (List ℚ)) (g st ms : ℚ)
    (mc : ℕ) (hnn : ∀ row ∈ S, ∀ v ∈ row, 0 ≤ v) :
    List.Chain' (fun a b : AlignmentRec => b.score ≤ a.score)
      (find_all_alignments S g g st ms mc) := by
  have aux : ∀ (fuel : ℕ) (W : List (List ℚ)), (∀ row ∈ W, ∀ v ∈ row, 0 ≤ v) →
      List.Chain' (fun a b : AlignmentRec => b.score ≤ a.score)
        (findAllAux S g g st ms mc fuel W) := by
    intro fuel
    induction fuel with
    | zero =>
        intro W hW
        simp [findAllAux]
    | succ fuel ih =>
        intro W hW
        simp only [findAllAux]
        split
        · exact List.chain'_nil
        · rename_i hacc
          rw [List.chain'_cons']
          have hWnn : ∀ row ∈ maskMatrix W
              (mkRecord S (smith_waterman_alignment W g g st).1
                (smith_waterman_alignment W g g st).2.1).h_range.1
              (mkRecord S (smith_waterman_alignment W g g st).1
                (smith_waterman_alignment W g g st).2.1).h_range.2
              (mkRecord S (smith_waterman_alignment W g g st).1
                (smith_waterman_alignment W g g st).2.1).b_range.1
              (mkRecord S (smith_waterman_alignment W g g st).1
                (smith_waterman_alignment W g g st).2.1).b_range.2,
              ∀ v ∈ row, 0 ≤ v :=
            maskRowsFrom_nonneg _ _ _ _ 0 W hW
          refine ⟨?_, ih _ hWnn⟩
          intro b hb
          match e : findAllAux S g g st ms mc fuel (maskMatrix W
              (mkRecord S (smith_waterman_alignment W g g st).1
                (smith_waterman_alignment W g g st).2.1).h_range.1
              (mkRecord S (smith_waterman_alignment W g g st).1
                (smith_waterman_alignment W g g st).2.1).h_range.2
              (mkRecord S (smith_waterman_alignment W g g st).1
                (smith_waterman_alignment W g g st).2.1).b_range.1
              (mkRecord S (smith_waterman_alignment W g g st).1
                (smith_waterman_alignment W g g st).2.1).b_range.2) with
          | [] =>
              rw [e] at hb
              simp at hb
          | r1 :: l1 =>
              rw [e] at hb
              simp only [List.head?_cons, Option.mem_def, Option.some.injEq] at hb
              have hscore1 := findAllAux_head_score S g g st ms mc fuel _ r1 l1 e
              have hmask := maskRowsFrom_forall2_le
                (mkRecord S (smith_waterman_alignment W g g st).1
                  (smith_waterman_alignment W g g st).2.1).h_range.1
                (mkRecord S (smith_waterman_alignment W g g st).1
                  (smith_waterman_alignment W g g st).2.1).h_range.2
                (mkRecord S (smith_waterman_alignment W g g st).1
                  (smith_waterman_alignment W g g st).2.1).b_range.1
                (mkRecord S (smith_waterman_alignment W g g st).1
                  (smith_waterman_alignment W g g st).2.1).b_range.2
                0 W hW
              have hmono := score_mono g st _ W hmask
              rw [← hb]
              show r1.score ≤ (mkRecord S (smith_waterman_alignment W g g st).1
                (smith_waterman_alignment W g g st).2.1).score
              rw [hscore1]
              exact le_trans hmono (le_of_eq rfl)
  exact aux _ S hnn

/-- Witness for the amended C3 on a concrete nonnegative matrix. -/
theorem C3_scores_nonincreasing_amended_witness :
    (∀ row ∈ ([[(1 : ℚ)]] : List (List ℚ)), ∀ v ∈ row, 0 ≤ v) ∧
    List.Chain' (fun a b : AlignmentRec => b.score ≤ a.score)
      (find_all_alignments [[(1 : ℚ)]] (-1) (-1) 0 (1 / 2) 1) :=
  ⟨by decide, C3_scores_nonincreasing_amended [[(1 : ℚ)]] (-1) 0 (1 / 2) 1
    (by decide)⟩

/-- Witness for the amended C4 at a concrete 2 by 2 matrix and cell. -/
theorem C4_match_candidate_amended_witness :
    (([[(1 : ℚ), 0], [0, 1]].headD []).length = 2 ∧
      (∀ row ∈ [[(1 : ℚ), 0], [0, 1]], row.length = 2) ∧
      (1 : ℕ) < [[(1 : ℚ), 0], [0, 1]].length ∧ (1 : ℕ) < 2) ∧
    Hval (swMatrix (-1) (-1) 0 [[(1 : ℚ), 0], [0, 1]]) 2 2 =
      max4 0 (Hval (swMatrix (-1) (-1) 0 [[(1 : ℚ), 0], [0, 1]]) 1 1 +
          (Sval [[(1 : ℚ), 0], [0, 1]] 1 1 - 0))
        (Hval (swMatrix (-1) (-1) 0 [[(1 : ℚ), 0], [0, 1]]) 1 2 +
          (if Tcode (swMatrix (-1) (-1) 0 [[(1 : ℚ), 0], [0, 1]]) 1 2 = 2
            then (-1) else (-1)))
        (Hval (swMatrix (-1) (-1) 0 [[(1 : ℚ), 0], [0, 1]]) 2 1 +
          (if Tcode (swMatrix (-1) (-1) 0 [[(1 : ℚ), 0], [0, 1]]) 2 1 = 3
            then (-1) else (-1))) :=
  ⟨⟨by decide, by decide, by decide, by decide⟩,
    (C4_match_candidate_amended (-1) (-1) 0 [[(1 : ℚ), 0], [0, 1]] 2
      (by decide) (by decide) 1 1 (by decide) (by decide)).1⟩

end BioSci
